import Mathlib

/-!
Verification development for the `shutup` crate (`src/lib.rs`), a hierarchical
shutdown-coordination primitive.  A `ShutUp` handle owns a broadcast wake
signal, an atomic status flag, a mutex-protected list of child handles and a
mutex-protected list of one-shot hooks.

The shallow embedding below represents handles as natural-number indices into
list-indexed state.  The `shutF` function embeds `ShutUp::shut`, including:
the idempotence check on the status flag, the `signal.send(())` (which wakes
exactly the receivers that subscribed before the send, as tokio's broadcast
channel does), the `status.store(true)`, and the two `.lock().unwrap().drain(..)`
loops.  In the Rust source the temporary `MutexGuard` produced inside each
`for` loop head lives for the whole loop, so the children lock is held while
children are recursively shut and the hooks lock is held while hooks run;
the embedding tracks the set of locks held by the running thread and treats a
reentrant acquisition as a deadlock, as `std::sync::Mutex` would.

Hooks are embedded as an id together with an optional reentrant action
(`some b` means the hook calls `shut` on handle `b`; `none` is an inert hook),
which is enough to express the reentrancy claims about hooks that call back
into the shutdown logic.
-/

/-- A mutex in the program: the `children` lock or the `hooks` lock of a handle. -/
inductive Lk where
  | ch (h : Nat)
  | hk (h : Nat)
deriving DecidableEq, Repr

/-- The handle owning a lock. -/
def Lk.owner : Lk → Nat
  | .ch h => h
  | .hk h => h

/-- Observable events of an execution: the broadcast signal of a handle firing
(`signal.send(())` inside `shut`), and a hook of a handle running, recorded
together with the locks held by the thread at that moment. -/
inductive Ev where
  | fire (h : Nat)
  | hookRun (h : Nat) (k : Nat) (held : List Lk)
deriving DecidableEq, Repr

/-- A subscription created by `wait()` (`signal.subscribe()`): the handle, a
unique id, and whether the returned future has been woken by a send. -/
structure Waiter where
  handle : Nat
  id : Nat
  resolved : Bool
deriving DecidableEq, Repr

/-- A registered hook: its unique id and its optional reentrant action
(`some b` : the callback invokes `shut` on handle `b`). -/
abbrev Hook := Nat × Option Nat

/-- Global state: one entry per allocated handle in each of the `status`,
`children`, `hooks` and `sent` lists, plus the outstanding `wait()`
subscriptions and fresh-id counters. -/
structure St where
  status : List Bool
  children : List (List Nat)
  hooks : List (List Hook)
  sent : List Bool
  subs : List Waiter
  nextHook : Nat
  nextSub : Nat
deriving DecidableEq, Repr

/-- Number of allocated handles. -/
def St.numHandles (s : St) : Nat := s.status.length

/-- The status flag of handle `h` (`ShutUp::off`).  Indices that are not
allocated handles read as `true`; every reachable execution only consults
allocated indices. -/
def St.statusOf (s : St) (h : Nat) : Bool := s.status.getD h true

/-- The children list of handle `h`. -/
def St.childrenOf (s : St) (h : Nat) : List Nat := s.children.getD h []

/-- The hooks list of handle `h`. -/
def St.hooksOf (s : St) (h : Nat) : List Hook := s.hooks.getD h []

/-- `signal.send(())`: mark the channel as fired and wake every subscription
that currently exists on this handle.  Receivers that subscribe later are not
woken by this send (tokio broadcast semantics). -/
def sendSignal (s : St) (h : Nat) : St :=
  { s with
    sent := s.sent.set h true
    subs := s.subs.map fun sub =>
      if sub.handle = h then { sub with resolved := true } else sub }

/-- `status.store(true)`. -/
def setStatus (s : St) (h : Nat) : St :=
  { s with status := s.status.set h true }

/-- Emptying of the children list performed by `children.lock().unwrap().drain(..)`. -/
def drainChildren (s : St) (h : Nat) : St :=
  { s with children := s.children.set h [] }

/-- Emptying of the hooks list performed by `hooks.lock().unwrap().drain(..)`. -/
def drainHooks (s : St) (h : Nat) : St :=
  { s with hooks := s.hooks.set h [] }

/-- Failure modes: `outOfFuel` (the fuel bound on recursion depth ran out),
`deadlock` (a mutex was acquired while already held by this thread), and
`invalid` (an operation was invoked through a handle id that does not exist). -/
inductive Err where
  | outOfFuel
  | deadlock
  | invalid
deriving DecidableEq, Repr

/-- Threaded iteration of an effectful step over a list, concatenating the
traces of the steps: the shape of a `for` loop whose body may fail. -/
def iterE (step : St → α → Except Err (St × List Ev)) :
    St → List α → Except Err (St × List Ev)
  | s, [] => .ok (s, [])
  | s, x :: xs =>
    match step s x with
    | .error e => .error e
    | .ok (s1, tr1) =>
      match iterE step s1 xs with
      | .error e => .error e
      | .ok (s2, tr2) => .ok (s2, tr1 ++ tr2)

/-- `ShutUp::shut`, embedded with explicit fuel bounding the recursion depth
and the list `held` of locks currently held by the running thread:
if `self.off()` return; `signal.send(())`; `status.store(true)`;
acquire the children lock and shut each drained child while it is held;
acquire the hooks lock and run each drained hook while it is held
(a hook `(k, none)` is inert, a hook `(k, some b)` calls `shut` on `b`). -/
def shutF : Nat → List Lk → St → Nat → Except Err (St × List Ev)
  | 0, _, _, _ => .error .outOfFuel
  | f + 1, held, s, h =>
    if s.statusOf h then .ok (s, [])
    else
      let s1 := sendSignal s h
      let s2 := setStatus s1 h
      if Lk.ch h ∈ held then .error .deadlock
      else
        let cs := s2.childrenOf h
        let s3 := drainChildren s2 h
        match iterE (shutF f (Lk.ch h :: held)) s3 cs with
        | .error e => .error e
        | .ok (s4, tr1) =>
          if Lk.hk h ∈ held then .error .deadlock
          else
            let hks := s4.hooksOf h
            let s5 := drainHooks s4 h
            match iterE
                (fun t hk =>
                  match hk with
                  | (k, none) => .ok (t, [Ev.hookRun h k (Lk.hk h :: held)])
                  | (k, some b) =>
                    match shutF f (Lk.hk h :: held) t b with
                    | .error e => .error e
                    | .ok (t1, trb) =>
                      .ok (t1, Ev.hookRun h k (Lk.hk h :: held) :: trb))
                s5 hks with
            | .error e => .error e
            | .ok (s6, tr2) => .ok (s6, Ev.fire h :: (tr1 ++ tr2))

/-- Invocation of a single drained hook of handle `hx` with locks `held` held:
emit the run event, and perform the reentrant `shut` call if the hook has one
(with fuel `f` for that nested call). -/
def runHook (f : Nat) (held : List Lk) (hx : Nat) (t : St) (hk : Hook) :
    Except Err (St × List Ev) :=
  match hk with
  | (k, none) => .ok (t, [Ev.hookRun hx k held])
  | (k, some b) =>
    match shutF f held t b with
    | .error e => .error e
    | .ok (t1, trb) => .ok (t1, Ev.hookRun hx k held :: trb)

/-- The state reached inside `shut` after `signal.send(())`,
`status.store(true)` and the draining of the children list. -/
def preS (s : St) (h : Nat) : St :=
  drainChildren (setStatus (sendSignal s h) h) h

/-- Unfolding of `shutF` at positive fuel, stated with the named loop bodies. -/
theorem shutF_succ (f : Nat) (held : List Lk) (s : St) (h : Nat) :
    shutF (f + 1) held s h =
      (if s.statusOf h then .ok (s, [])
      else if Lk.ch h ∈ held then .error .deadlock
      else
        match iterE (shutF f (Lk.ch h :: held)) (preS s h) (s.childrenOf h) with
        | .error e => .error e
        | .ok (s4, tr1) =>
          if Lk.hk h ∈ held then .error .deadlock
          else
            match iterE (runHook f (Lk.hk h :: held) h) (drainHooks s4 h)
                (s4.hooksOf h) with
            | .error e => .error e
            | .ok (s6, tr2) => .ok (s6, Ev.fire h :: (tr1 ++ tr2))) := rfl

/-- The public operations of the library.  `root` is `ShutUp::root` (also the
process-wide `ROOT`, and the first step of `ShutUp::new`), `child` is
`ShutUp::child`, `adopt` is `ShutUp::adopt`, `wait` is `ShutUp::wait`,
`registerHook` is `ShutUp::register_hook` and `shut` is `ShutUp::shut`. -/
inductive Op where
  | root
  | child (p : Nat)
  | adopt (p c : Nat)
  | wait (h : Nat)
  | registerHook (h : Nat) (body : Option Nat)
  | shut (h : Nat)
deriving DecidableEq, Repr

/-- `ShutUp::root()`: a fresh handle with status `false`, no children, no
hooks, an unfired channel.  Its id is the previous `numHandles`. -/
def newHandle (s : St) : St :=
  { s with
    status := s.status ++ [false]
    children := s.children ++ [[]]
    hooks := s.hooks ++ [[]]
    sent := s.sent ++ [false] }

/-- `self.0.children.lock().unwrap().push(c)`. -/
def pushChild (s : St) (p c : Nat) : St :=
  { s with children := s.children.set p (s.childrenOf p ++ [c]) }

/-- Validity of a hook action: it may only mention an allocated handle. -/
def bodyOK (b : Option Nat) (n : Nat) : Prop := ∀ x ∈ b.toList, x < n

instance (b : Option Nat) (n : Nat) : Decidable (bodyOK b n) :=
  inferInstanceAs (Decidable (∀ x ∈ b.toList, x < n))

/-- One public API call.  Operations other than `shut` are the direct
translations of the one or two statements in their Rust bodies; `shut` runs
`shutF` with no locks held and fuel `numHandles + 1`, which is always
sufficient (`shutF_fuel_ok`). -/
def exec (s : St) (op : Op) : Except Err (St × List Ev) :=
  match op with
  | .root => .ok (newHandle s, [])
  | .child p =>
    if p < s.numHandles then .ok (pushChild (newHandle s) p s.numHandles, [])
    else .error .invalid
  | .adopt p c =>
    if p < s.numHandles ∧ c < s.numHandles then .ok (pushChild s p c, [])
    else .error .invalid
  | .wait h =>
    if h < s.numHandles then
      .ok ({ s with subs := s.subs ++ [⟨h, s.nextSub, false⟩], nextSub := s.nextSub + 1 }, [])
    else .error .invalid
  | .registerHook h body =>
    if h < s.numHandles ∧ bodyOK body s.numHandles then
      .ok ({ s with hooks := s.hooks.set h (s.hooksOf h ++ [(s.nextHook, body)]), nextHook := s.nextHook + 1 }, [])
    else .error .invalid
  | .shut h =>
    if h < s.numHandles then shutF (s.numHandles + 1) [] s h
    else .error .invalid

/-- Sequential execution of a list of API calls, concatenating the traces. -/
def run (s : St) (p : List Op) : Except Err (St × List Ev) :=
  match p with
  | [] => .ok (s, [])
  | op :: rest =>
    match exec s op with
    | .error e => .error e
    | .ok (s1, tr1) =>
      match run s1 rest with
      | .error e => .error e
      | .ok (s2, tr2) => .ok (s2, tr1 ++ tr2)

instance {ε α : Type} [DecidableEq ε] [DecidableEq α] : DecidableEq (Except ε α) :=
  fun x y =>
    match x, y with
    | .ok a, .ok b =>
      if h : a = b then .isTrue (by rw [h]) else .isFalse (by intro hh; cases hh; exact h rfl)
    | .error a, .error b =>
      if h : a = b then .isTrue (by rw [h]) else .isFalse (by intro hh; cases hh; exact h rfl)
    | .ok _, .error _ => .isFalse (by intro hh; cases hh)
    | .error _, .ok _ => .isFalse (by intro hh; cases hh)

/-- The empty process state, before any handle exists. -/
def St.empty : St := ⟨[], [], [], [], [], 0, 0⟩

/-- Execution from the empty state. -/
def run0 (p : List Op) : Except Err (St × List Ev) := run St.empty p

/-- Sanity check: a parent adopting a handle with a hook, then shutting. -/
theorem sanity_adopt_shut :
    run0 [.root, .root, .adopt 0 1, .registerHook 1 none, .shut 0] =
      .ok (⟨[true, true], [[], []], [[], []], [true, true], [], 1, 0⟩,
        [Ev.fire 0, Ev.fire 1, Ev.hookRun 1 0 [Lk.hk 1, Lk.ch 0]]) := by
  decide

/-- Sanity check: a `wait` after `shut` leaves an unresolved subscription. -/
theorem sanity_late_wait :
    run0 [.root, .shut 0, .wait 0] =
      .ok (⟨[true], [[]], [[]], [true], [⟨0, 0, false⟩], 0, 1⟩,
        [Ev.fire 0]) := by
  decide

/-! ### Generic list lemmas used by the development -/

theorem getD_set_self {α : Type} (l : List α) (i : Nat) (a d : α) (h : i < l.length) :
    (l.set i a).getD i d = a := by
  induction l generalizing i with
  | nil => simp at h
  | cons x xs ih =>
    cases i with
    | zero => rfl
    | succ j => simpa using ih j (by simpa using h)

theorem getD_set_ne {α : Type} (l : List α) {i j : Nat} (a d : α) (h : i ≠ j) :
    (l.set i a).getD j d = l.getD j d := by
  induction l generalizing i j with
  | nil => rfl
  | cons x xs ih =>
    cases i with
    | zero => cases j with
      | zero => exact absurd rfl h
      | succ m => rfl
    | succ i0 => cases j with
      | zero => rfl
      | succ m => simpa using ih (fun hh => h (by rw [hh]))

theorem set_oob {α : Type} (l : List α) {i : Nat} (a : α) (h : l.length ≤ i) :
    l.set i a = l := by
  induction l generalizing i with
  | nil => rfl
  | cons x xs ih =>
    cases i with
    | zero => simp at h
    | succ j => simpa using ih (by simpa using h)

theorem getD_oob {α : Type} (l : List α) {i : Nat} (d : α) (h : l.length ≤ i) :
    l.getD i d = d := by
  induction l generalizing i with
  | nil => rfl
  | cons x xs ih =>
    cases i with
    | zero => simp at h
    | succ j => simpa using ih (by simpa using h)

theorem getD_append_left {α : Type} (l m : List α) (i : Nat) (d : α) (h : i < l.length) :
    (l ++ m).getD i d = l.getD i d := by
  induction l generalizing i with
  | nil => simp at h
  | cons x xs ih =>
    cases i with
    | zero => rfl
    | succ j => simpa using ih j (by simpa using h)

theorem getD_append_len {α : Type} (l : List α) (a d : α) :
    (l ++ [a]).getD l.length d = a := by
  induction l with
  | nil => rfl
  | cons x xs ih => simpa using ih

/-! ### Accessor lemmas for the state transformers -/

theorem statusOf_false_lt {s : St} {h : Nat} (hf : s.statusOf h = false) :
    h < s.status.length := by
  by_contra hlt
  rw [St.statusOf, getD_oob _ _ (Nat.le_of_not_lt hlt)] at hf
  exact Bool.noConfusion hf

@[simp] theorem statusOf_sendSignal (s : St) (h x : Nat) :
    (sendSignal s h).statusOf x = s.statusOf x := rfl

@[simp] theorem childrenOf_sendSignal (s : St) (h x : Nat) :
    (sendSignal s h).childrenOf x = s.childrenOf x := rfl

@[simp] theorem hooksOf_sendSignal (s : St) (h x : Nat) :
    (sendSignal s h).hooksOf x = s.hooksOf x := rfl

@[simp] theorem statusOf_drainChildren (s : St) (h x : Nat) :
    (drainChildren s h).statusOf x = s.statusOf x := rfl

@[simp] theorem statusOf_drainHooks (s : St) (h x : Nat) :
    (drainHooks s h).statusOf x = s.statusOf x := rfl

@[simp] theorem hooksOf_drainChildren (s : St) (h x : Nat) :
    (drainChildren s h).hooksOf x = s.hooksOf x := rfl

@[simp] theorem childrenOf_drainHooks (s : St) (h x : Nat) :
    (drainHooks s h).childrenOf x = s.childrenOf x := rfl

@[simp] theorem subs_setStatus (s : St) (h : Nat) : (setStatus s h).subs = s.subs := rfl

@[simp] theorem subs_drainChildren (s : St) (h : Nat) :
    (drainChildren s h).subs = s.subs := rfl

@[simp] theorem subs_drainHooks (s : St) (h : Nat) : (drainHooks s h).subs = s.subs := rfl

@[simp] theorem childrenOf_setStatus (s : St) (h x : Nat) :
    (setStatus s h).childrenOf x = s.childrenOf x := rfl

@[simp] theorem hooksOf_setStatus (s : St) (h x : Nat) :
    (setStatus s h).hooksOf x = s.hooksOf x := rfl

theorem statusOf_setStatus_self {s : St} {h : Nat} (hf : h < s.status.length) :
    (setStatus s h).statusOf h = true :=
  getD_set_self s.status h true true hf

theorem statusOf_setStatus_ne (s : St) {h x : Nat} (hne : h ≠ x) :
    (setStatus s h).statusOf x = s.statusOf x :=
  getD_set_ne s.status true true hne

theorem childrenOf_drainChildren_self (s : St) (h : Nat) :
    (drainChildren s h).childrenOf h = [] := by
  rcases Nat.lt_or_ge h s.children.length with hlt | hge
  · exact getD_set_self s.children h [] [] hlt
  · show (s.children.set h []).getD h [] = []
    rw [set_oob _ _ hge]
    exact getD_oob _ _ hge

theorem childrenOf_drainChildren_ne (s : St) {h x : Nat} (hne : h ≠ x) :
    (drainChildren s h).childrenOf x = s.childrenOf x :=
  getD_set_ne s.children [] [] hne

theorem hooksOf_drainHooks_self (s : St) (h : Nat) :
    (drainHooks s h).hooksOf h = [] := by
  rcases Nat.lt_or_ge h s.hooks.length with hlt | hge
  · exact getD_set_self s.hooks h [] [] hlt
  · show (s.hooks.set h []).getD h [] = []
    rw [set_oob _ _ hge]
    exact getD_oob _ _ hge

theorem hooksOf_drainHooks_ne (s : St) {h x : Nat} (hne : h ≠ x) :
    (drainHooks s h).hooksOf x = s.hooksOf x :=
  getD_set_ne s.hooks [] [] hne

@[simp] theorem lengths_sendSignal (s : St) (h : Nat) :
    (sendSignal s h).status.length = s.status.length ∧
    (sendSignal s h).children.length = s.children.length ∧
    (sendSignal s h).hooks.length = s.hooks.length ∧
    (sendSignal s h).sent.length = s.sent.length := by
  refine ⟨rfl, rfl, rfl, ?_⟩
  simp [sendSignal]

@[simp] theorem status_length_setStatus (s : St) (h : Nat) :
    (setStatus s h).status.length = s.status.length := by
  simp [setStatus]

@[simp] theorem children_length_drainChildren (s : St) (h : Nat) :
    (drainChildren s h).children.length = s.children.length := by
  simp [drainChildren]

@[simp] theorem hooks_length_drainHooks (s : St) (h : Nat) :
    (drainHooks s h).hooks.length = s.hooks.length := by
  simp [drainHooks]

/-! ### Trace projections and counters -/

/-- The ids of the hooks of handle `x` that run in a trace, in execution order. -/
def hookIdsOf (x : Nat) (tr : List Ev) : List Nat :=
  tr.filterMap fun e =>
    match e with
    | .hookRun h k _ => if h = x then some k else none
    | _ => none

@[simp] theorem hookIdsOf_nil (x : Nat) : hookIdsOf x [] = [] := rfl

@[simp] theorem hookIdsOf_append (x : Nat) (t1 t2 : List Ev) :
    hookIdsOf x (t1 ++ t2) = hookIdsOf x t1 ++ hookIdsOf x t2 :=
  List.filterMap_append t1 t2 _

@[simp] theorem hookIdsOf_cons_fire (x h : Nat) (tr : List Ev) :
    hookIdsOf x (Ev.fire h :: tr) = hookIdsOf x tr := by
  simp [hookIdsOf]

@[simp] theorem hookIdsOf_cons_self (x k : Nat) (held : List Lk) (tr : List Ev) :
    hookIdsOf x (Ev.hookRun x k held :: tr) = k :: hookIdsOf x tr := by
  simp [hookIdsOf]

theorem hookIdsOf_cons_ne (x h k : Nat) (held : List Lk) (tr : List Ev)
    (hne : h ≠ x) : hookIdsOf x (Ev.hookRun h k held :: tr) = hookIdsOf x tr := by
  simp [hookIdsOf, hne]

theorem mem_hookIdsOf {x k : Nat} {held : List Lk} {tr : List Ev}
    (hm : Ev.hookRun x k held ∈ tr) : k ∈ hookIdsOf x tr := by
  induction tr with
  | nil => cases hm
  | cons e rest ih =>
    rcases List.mem_cons.mp hm with he | hm2
    · subst he
      simp
    · cases e with
      | fire h => simpa using ih hm2
      | hookRun h k2 d =>
        by_cases hh : h = x
        · subst hh
          simp only [hookIdsOf_cons_self]
          exact List.mem_cons_of_mem _ (ih hm2)
        · rw [hookIdsOf_cons_ne _ _ _ _ _ hh]
          exact ih hm2

/-- Number of `fire` events of handle `x` in a trace. -/
def fireCount (x : Nat) : List Ev → Nat
  | [] => 0
  | .fire h :: tr => (if h = x then 1 else 0) + fireCount x tr
  | .hookRun _ _ _ :: tr => fireCount x tr

@[simp] theorem fireCount_nil (x : Nat) : fireCount x [] = 0 := rfl

@[simp] theorem fireCount_cons_fire (x h : Nat) (tr : List Ev) :
    fireCount x (Ev.fire h :: tr) = (if h = x then 1 else 0) + fireCount x tr := rfl

@[simp] theorem fireCount_cons_hookRun (x h k : Nat) (held : List Lk) (tr : List Ev) :
    fireCount x (Ev.hookRun h k held :: tr) = fireCount x tr := rfl

@[simp] theorem fireCount_append (x : Nat) (t1 t2 : List Ev) :
    fireCount x (t1 ++ t2) = fireCount x t1 + fireCount x t2 := by
  induction t1 with
  | nil => simp
  | cons e rest ih =>
    match e with
    | .fire h => simp [ih, Nat.add_assoc]
    | .hookRun h k d => simp [ih]

theorem fire_mem_of_fireCount {x : Nat} {tr : List Ev} (hc : fireCount x tr ≠ 0) :
    Ev.fire x ∈ tr := by
  induction tr with
  | nil => simp at hc
  | cons e rest ih =>
    match e with
    | .fire h =>
      by_cases hh : h = x
      · subst hh; exact List.mem_cons_self _ _
      · simp only [fireCount_cons_fire, if_neg hh, Nat.zero_add] at hc
        exact List.mem_cons_of_mem _ (ih hc)
    | .hookRun h k d =>
      simp only [fireCount_cons_hookRun] at hc
      exact List.mem_cons_of_mem _ (ih hc)

/-- Number of `false` entries of a boolean list. -/
def falseCount : List Bool → Nat
  | [] => 0
  | b :: l => (if b then 0 else 1) + falseCount l

/-- Number of allocated handles that have not been shut. -/
def unshutCount (s : St) : Nat := falseCount s.status

theorem falseCount_set_true {l : List Bool} {i : Nat} (hi : i < l.length)
    (hf : l.getD i true = false) : falseCount (l.set i true) + 1 = falseCount l := by
  induction l generalizing i with
  | nil => simp at hi
  | cons b t ih =>
    cases i with
    | zero =>
      cases b
      · simp [falseCount, Nat.add_comm]
      · cases hf
    | succ j =>
      have := ih (by simpa using hi) (by simpa using hf)
      cases b <;> simp [falseCount, List.set] <;> omega

theorem falseCount_le_of_mono {l l2 : List Bool} (hlen : l2.length = l.length)
    (hm : ∀ x, l.getD x true = true → l2.getD x true = true) :
    falseCount l2 ≤ falseCount l := by
  induction l generalizing l2 with
  | nil =>
    cases l2 with
    | nil => exact Nat.le_refl _
    | cons b t => simp at hlen
  | cons b t ih =>
    cases l2 with
    | nil => simp at hlen
    | cons b2 t2 =>
      have hh : b = true → b2 = true := fun hb => hm 0 hb
      have ht : falseCount t2 ≤ falseCount t :=
        ih (by simpa using hlen) (fun x hx => hm (x + 1) hx)
      cases b
      · cases b2 <;> simp [falseCount] <;> omega
      · rw [hh rfl]
        simpa [falseCount] using ht

/-! ### Flip, Post0 and Hids: postconditions of a shutdown computation -/

/-- Handle `x` transitions from not-shut to shut between states `s` and `t`. -/
def Flip (s t : St) (x : Nat) : Prop :=
  s.statusOf x = false ∧ t.statusOf x = true

instance (s t : St) (x : Nat) : Decidable (Flip s t x) :=
  inferInstanceAs (Decidable (_ ∧ _))

theorem Flip.not_self (s : St) (x : Nat) : ¬ Flip s s x := by
  rintro ⟨h1, h2⟩
  rw [h1] at h2
  cases h2

/-- Common postcondition of `shutF` and of both drain loops: sizes and
counters are unchanged, statuses only rise, children and hooks lists are
either untouched or drained exactly when their handle flips, every child of
a flipped handle ends up shut, a handle fires exactly once when it flips,
and the subscriptions are exactly the old ones with those on flipped
handles woken. -/
structure Post0 (s t : St) (tr : List Ev) : Prop where
  lenStatus : t.status.length = s.status.length
  lenChildren : t.children.length = s.children.length
  lenHooks : t.hooks.length = s.hooks.length
  lenSent : t.sent.length = s.sent.length
  nh : t.nextHook = s.nextHook
  ns : t.nextSub = s.nextSub
  mono : ∀ x, s.statusOf x = true → t.statusOf x = true
  drainC : ∀ x, (Flip s t x → t.childrenOf x = []) ∧
    (¬ Flip s t x → t.childrenOf x = s.childrenOf x)
  drainH : ∀ x, (Flip s t x → t.hooksOf x = []) ∧
    (¬ Flip s t x → t.hooksOf x = s.hooksOf x)
  propag : ∀ x C, Flip s t x → C ∈ s.childrenOf x → t.statusOf C = true
  fireC : ∀ x, fireCount x tr = if Flip s t x then 1 else 0
  subsEq : t.subs = s.subs.map fun sub =>
    if Flip s t sub.handle then { sub with resolved := true } else sub

theorem Post0.refl (s : St) : Post0 s s [] := by
  refine ⟨rfl, rfl, rfl, rfl, rfl, rfl, fun x hx => hx,
    fun x => ⟨fun hf => absurd hf (Flip.not_self s x), fun _ => rfl⟩,
    fun x => ⟨fun hf => absurd hf (Flip.not_self s x), fun _ => rfl⟩, ?_, ?_, ?_⟩
  · intro x C hf
    exact absurd hf (Flip.not_self s x)
  · intro x
    rw [if_neg (Flip.not_self s x)]
    rfl
  · rw [show (fun sub => if Flip s s sub.handle then { sub with resolved := true } else sub)
      = fun (sub : Waiter) => sub from funext fun sub => if_neg (Flip.not_self s _)]
    exact (List.map_id _).symm

theorem flip_or {s s1 s2 : St} (m1 : ∀ x, s.statusOf x = true → s1.statusOf x = true)
    (m2 : ∀ x, s1.statusOf x = true → s2.statusOf x = true) (x : Nat) :
    Flip s s2 x ↔ (Flip s s1 x ∨ Flip s1 s2 x) := by
  constructor
  · rintro ⟨h0, h2⟩
    cases h1 : s1.statusOf x
    · exact Or.inr ⟨h1, h2⟩
    · exact Or.inl ⟨h0, h1⟩
  · rintro (⟨h0, h1⟩ | ⟨h1, h2⟩)
    · exact ⟨h0, m2 x h1⟩
    · refine ⟨?_, h2⟩
      cases h0 : s.statusOf x
      · rfl
      · rw [m1 x h0] at h1
        cases h1

theorem flip_excl {s s1 s2 : St} (m1 : ∀ x, s.statusOf x = true → s1.statusOf x = true)
    {x : Nat} (h : Flip s s1 x) : ¬ Flip s1 s2 x := by
  rintro ⟨h1, _⟩
  rw [h.2] at h1
  cases h1

theorem Post0.comp {s s1 s2 : St} {t1 t2 : List Ev}
    (p : Post0 s s1 t1) (q : Post0 s1 s2 t2) : Post0 s s2 (t1 ++ t2) := by
  have fo := flip_or p.mono q.mono
  refine ⟨q.lenStatus.trans p.lenStatus, q.lenChildren.trans p.lenChildren,
    q.lenHooks.trans p.lenHooks, q.lenSent.trans p.lenSent, q.nh.trans p.nh,
    q.ns.trans p.ns, fun x hx => q.mono x (p.mono x hx), ?_, ?_, ?_, ?_, ?_⟩
  · intro x
    constructor
    · intro hf
      rcases (fo x).mp hf with h1 | h2
      · rw [(q.drainC x).2 (flip_excl p.mono h1), (p.drainC x).1 h1]
      · exact (q.drainC x).1 h2
    · intro hnf
      rw [(q.drainC x).2 (fun hh => hnf ((fo x).mpr (Or.inr hh))),
        (p.drainC x).2 (fun hh => hnf ((fo x).mpr (Or.inl hh)))]
  · intro x
    constructor
    · intro hf
      rcases (fo x).mp hf with h1 | h2
      · rw [(q.drainH x).2 (flip_excl p.mono h1), (p.drainH x).1 h1]
      · exact (q.drainH x).1 h2
    · intro hnf
      rw [(q.drainH x).2 (fun hh => hnf ((fo x).mpr (Or.inr hh))),
        (p.drainH x).2 (fun hh => hnf ((fo x).mpr (Or.inl hh)))]
  · intro x C hf hc
    rcases (fo x).mp hf with hf1 | hf2
    · exact q.mono C (p.propag x C hf1 hc)
    · have hc1 : s1.childrenOf x = s.childrenOf x :=
        (p.drainC x).2 (fun hp => flip_excl p.mono hp hf2)
      exact q.propag x C hf2 (hc1 ▸ hc)
  · intro x
    rw [fireCount_append, p.fireC x, q.fireC x]
    by_cases h1 : Flip s s1 x
    · rw [if_pos h1, if_neg (flip_excl p.mono h1), if_pos ((fo x).mpr (Or.inl h1))]
    · by_cases h2 : Flip s1 s2 x
      · rw [if_neg h1, if_pos h2, if_pos ((fo x).mpr (Or.inr h2))]
      · rw [if_neg h1, if_neg h2, if_neg (fun hh => ((fo x).mp hh).elim h1 h2)]
  · rw [q.subsEq, p.subsEq, List.map_map]
    refine congrArg (fun g => List.map g s.subs) (funext fun sub => ?_)
    by_cases h1 : Flip s s1 sub.handle
    · rw [Function.comp_apply, if_pos h1]
      have h2 : ¬ Flip s1 s2 ({ sub with resolved := true } : Waiter).handle :=
        flip_excl p.mono h1
      rw [if_neg h2, if_pos ((fo _).mpr (Or.inl h1))]
    · rw [Function.comp_apply, if_neg h1]
      by_cases h2 : Flip s1 s2 sub.handle
      · rw [if_pos h2, if_pos ((fo _).mpr (Or.inr h2))]
      · rw [if_neg h2, if_neg (fun hh => ((fo _).mp hh).elim h1 h2)]

theorem post0_cons_hookRun {s t : St} {tr : List Ev} (p : Post0 s t tr)
    (a k : Nat) (held : List Lk) : Post0 s t (Ev.hookRun a k held :: tr) := by
  refine ⟨p.lenStatus, p.lenChildren, p.lenHooks, p.lenSent, p.nh, p.ns, p.mono,
    p.drainC, p.drainH, p.propag, ?_, p.subsEq⟩
  intro x
  rw [fireCount_cons_hookRun]
  exact p.fireC x

/-- The hook-run events of every handle in a trace are exactly the registered
hooks of the handles that flip, in registration order. -/
def Hids (s t : St) (tr : List Ev) : Prop :=
  ∀ x, hookIdsOf x tr = if Flip s t x then (s.hooksOf x).map Prod.fst else []

/-- `Hids` restricted to handles other than `hx`. -/
def HidsX (hx : Nat) (s t : St) (tr : List Ev) : Prop :=
  ∀ x, x ≠ hx → hookIdsOf x tr = if Flip s t x then (s.hooksOf x).map Prod.fst else []

theorem hids_nil (s : St) : Hids s s [] := by
  intro x
  rw [hookIdsOf_nil, if_neg (Flip.not_self s x)]

theorem hids_point_comp {s s1 s2 : St} {t1 t2 : List Ev} {x : Nat}
    (p : Post0 s s1 t1) (q : Post0 s1 s2 t2)
    (h1 : hookIdsOf x t1 = if Flip s s1 x then (s.hooksOf x).map Prod.fst else [])
    (h2 : hookIdsOf x t2 = if Flip s1 s2 x then (s1.hooksOf x).map Prod.fst else []) :
    hookIdsOf x (t1 ++ t2) = if Flip s s2 x then (s.hooksOf x).map Prod.fst else [] := by
  have fo := flip_or p.mono q.mono
  rw [hookIdsOf_append, h1, h2]
  by_cases hf1 : Flip s s1 x
  · rw [if_pos hf1, if_neg (flip_excl p.mono hf1), if_pos ((fo x).mpr (Or.inl hf1)),
      List.append_nil]
  · by_cases hf2 : Flip s1 s2 x
    · have hhk : s1.hooksOf x = s.hooksOf x :=
        (p.drainH x).2 (fun hp => flip_excl p.mono hp hf2)
      rw [if_neg hf1, if_pos hf2, if_pos ((fo x).mpr (Or.inr hf2)), hhk,
        List.nil_append]
    · rw [if_neg hf1, if_neg hf2, if_neg (fun hh => ((fo x).mp hh).elim hf1 hf2),
      List.append_nil]

theorem hids_comp {s s1 s2 : St} {t1 t2 : List Ev} (p : Post0 s s1 t1)
    (q : Post0 s1 s2 t2) (h1 : Hids s s1 t1) (h2 : Hids s1 s2 t2) :
    Hids s s2 (t1 ++ t2) :=
  fun x => hids_point_comp p q (h1 x) (h2 x)

@[simp] theorem iterE_nil {α : Type} (step : St → α → Except Err (St × List Ev)) (s : St) :
    iterE step s [] = .ok (s, []) := rfl

theorem iterE_cons {α : Type} (step : St → α → Except Err (St × List Ev)) (s : St)
    (x : α) (xs : List α) :
    iterE step s (x :: xs) =
      match step s x with
      | .error e => .error e
      | .ok (s1, t1) =>
        match iterE step s1 xs with
        | .error e => .error e
        | .ok (s2, t2) => .ok (s2, t1 ++ t2) := rfl

/-- Induction package for `shutF` at a fixed fuel: every successful call
satisfies `Post0`, reports exactly the hooks of flipped handles, and leaves
its target shut. -/
def PF (f : Nat) : Prop := ∀ held s h s' tr, shutF f held s h = .ok (s', tr) →
  Post0 s s' tr ∧ Hids s s' tr ∧ s'.statusOf h = true

/-- Induction package for the children loop. -/
def PL (f : Nat) : Prop := ∀ held s l s' tr,
  iterE (shutF f held) s l = .ok (s', tr) →
  Post0 s s' tr ∧ Hids s s' tr ∧ ∀ c ∈ l, s'.statusOf c = true

/-- Induction package for the hooks loop of a handle `hx` that is already
shut: the run hooks of `hx` are exactly the drained list, in order. -/
def PH (f : Nat) : Prop := ∀ held hx s l s' tr, s.statusOf hx = true →
  iterE (runHook f held hx) s l = .ok (s', tr) →
  Post0 s s' tr ∧ HidsX hx s s' tr ∧ hookIdsOf hx tr = l.map Prod.fst

theorem PL_of_PF {f : Nat} (hf : PF f) : PL f := by
  intro held s l
  induction l generalizing s with
  | nil =>
    intro s' tr h
    rw [iterE_nil] at h
    cases h
    exact ⟨Post0.refl s, hids_nil s, by simp⟩
  | cons c cs ih =>
    intro s' tr h
    rw [iterE_cons] at h
    split at h
    · cases h
    · rename_i s1 t1 hstep
      split at h
      · cases h
      · rename_i s2 t2 hrest
        injection h with hh
        injection hh with hh1 hh2
        subst hh1
        subst hh2
        obtain ⟨p1, h1, hs1⟩ := hf held s c s1 t1 hstep
        obtain ⟨p2, h2, hall⟩ := ih s1 s2 t2 hrest
        refine ⟨p1.comp p2, hids_comp p1 p2 h1 h2, ?_⟩
        intro d hd
        rcases List.mem_cons.mp hd with hdc | hd2
        · exact hdc ▸ p2.mono c hs1
        · exact hall d hd2

theorem flip_not_of_true {s t : St} {x : Nat} (h : s.statusOf x = true) :
    ¬ Flip s t x := by
  rintro ⟨h1, _⟩
  rw [h] at h1
  cases h1

theorem PH_of_PF {f : Nat} (hf : PF f) : PH f := by
  intro held hx s l
  induction l generalizing s with
  | nil =>
    intro s' tr hst h
    rw [iterE_nil] at h
    cases h
    exact ⟨Post0.refl s, fun x _ => by rw [hookIdsOf_nil, if_neg (Flip.not_self s x)],
      by simp⟩
  | cons hk rest ih =>
    intro s' tr hst h
    rw [iterE_cons] at h
    split at h
    · cases h
    · rename_i s1 t1 hstep
      split at h
      · cases h
      · rename_i s2 t2 hrest
        injection h with hh
        injection hh with hh1 hh2
        subst hh1
        subst hh2
        obtain ⟨k, body⟩ := hk
        cases body with
        | none =>
          have hse : runHook f held hx s (k, none) = .ok (s, [Ev.hookRun hx k held]) := rfl
          rw [hse] at hstep
          injection hstep with hstep2
          injection hstep2 with he1 he2
          subst he1
          subst he2
          obtain ⟨p2, hx2, hi2⟩ := ih s s2 t2 hst hrest
          rw [show ([Ev.hookRun hx k held] ++ t2) = Ev.hookRun hx k held :: t2 from rfl]
          refine ⟨post0_cons_hookRun p2 hx k held, ?_, ?_⟩
          · intro x hne
            rw [hookIdsOf_cons_ne _ _ _ _ _ (Ne.symm hne)]
            exact hx2 x hne
          · rw [hookIdsOf_cons_self, hi2]
            rfl
        | some b =>
          have hse : runHook f held hx s (k, some b) =
              match shutF f held s b with
              | .error e => .error e
              | .ok (t1, trb) => .ok (t1, Ev.hookRun hx k held :: trb) := rfl
          rw [hse] at hstep
          split at hstep
          · cases hstep
          · rename_i tb trb hsb
            injection hstep with hh3
            injection hh3 with hh4 hh5
            subst hh4
            subst hh5
            obtain ⟨p1, h1, hbstat⟩ := hf held s b tb trb hsb
            obtain ⟨p2, hx2, hi2⟩ := ih tb s2 t2 (p1.mono hx hst) hrest
            rw [show ((Ev.hookRun hx k held :: trb) ++ t2)
              = Ev.hookRun hx k held :: (trb ++ t2) from rfl]
            refine ⟨post0_cons_hookRun (p1.comp p2) hx k held, ?_, ?_⟩
            · intro x hne
              rw [hookIdsOf_cons_ne _ _ _ _ _ (Ne.symm hne)]
              exact hids_point_comp p1 p2 (h1 x) (hx2 x hne)
            · rw [hookIdsOf_cons_self, hookIdsOf_append, h1 hx,
                if_neg (flip_not_of_true hst), hi2]
              rfl

/-! ### Facts about the intermediate states of a `shut` body -/

theorem statusOf_preS {s : St} {h : Nat} (hlt : h < s.status.length) (x : Nat) :
    (preS s h).statusOf x = if x = h then true else s.statusOf x := by
  by_cases hxh : x = h
  · subst hxh
    rw [if_pos rfl]
    exact statusOf_setStatus_self hlt
  · rw [if_neg hxh]
    exact statusOf_setStatus_ne (sendSignal s h) (fun e => hxh e.symm)

theorem childrenOf_preS (s : St) (h x : Nat) :
    (preS s h).childrenOf x = if x = h then [] else s.childrenOf x := by
  by_cases hxh : x = h
  · subst hxh
    rw [if_pos rfl]
    exact childrenOf_drainChildren_self _ x
  · rw [if_neg hxh]
    exact childrenOf_drainChildren_ne _ (fun e => hxh e.symm)

theorem hooksOf_preS (s : St) (h x : Nat) : (preS s h).hooksOf x = s.hooksOf x := rfl

theorem subs_preS (s : St) (h : Nat) :
    (preS s h).subs = s.subs.map fun sub =>
      if sub.handle = h then { sub with resolved := true } else sub := rfl

theorem lens_preS (s : St) (h : Nat) :
    (preS s h).status.length = s.status.length ∧
    (preS s h).children.length = s.children.length ∧
    (preS s h).hooks.length = s.hooks.length ∧
    (preS s h).sent.length = s.sent.length ∧
    (preS s h).nextHook = s.nextHook ∧
    (preS s h).nextSub = s.nextSub := by
  refine ⟨?_, ?_, rfl, ?_, rfl, rfl⟩ <;> simp [preS, drainChildren, setStatus, sendSignal]

theorem flip_or_pt {s s1 s2 : St} {x : Nat}
    (m1 : s.statusOf x = true → s1.statusOf x = true)
    (m2 : s1.statusOf x = true → s2.statusOf x = true) :
    Flip s s2 x ↔ (Flip s s1 x ∨ Flip s1 s2 x) := by
  constructor
  · rintro ⟨h0, h2⟩
    cases h1 : s1.statusOf x
    · exact Or.inr ⟨h1, h2⟩
    · exact Or.inl ⟨h0, h1⟩
  · rintro (⟨h0, h1⟩ | ⟨h1, h2⟩)
    · exact ⟨h0, m2 h1⟩
    · refine ⟨?_, h2⟩
      cases h0 : s.statusOf x
      · rfl
      · rw [m1 h0] at h1
        cases h1

theorem comp_count {P1 P2 P : Prop} [Decidable P1] [Decidable P2] [Decidable P]
    (hiff : P ↔ P1 ∨ P2) (hexcl : P1 → ¬ P2) :
    ((if P1 then 1 else 0) + (if P2 then 1 else 0) : Nat) = if P then 1 else 0 := by
  by_cases h1 : P1
  · rw [if_pos h1, if_neg (hexcl h1), if_pos (hiff.mpr (Or.inl h1))]
  · by_cases h2 : P2
    · rw [if_neg h1, if_pos h2, if_pos (hiff.mpr (Or.inr h2))]
    · rw [if_neg h1, if_neg h2, if_neg (fun hp => (hiff.mp hp).elim h1 h2)]

theorem comp_lists {α : Type} {L1 L2 : List α} {P1 P2 P : Prop} [Decidable P1]
    [Decidable P2] [Decidable P] (hiff : P ↔ P1 ∨ P2) (hexcl : P1 → ¬ P2)
    (hL : P2 → L2 = L1) :
    (if P1 then L1 else []) ++ (if P2 then L2 else []) = if P then L1 else [] := by
  by_cases h1 : P1
  · rw [if_pos h1, if_neg (hexcl h1), if_pos (hiff.mpr (Or.inl h1)), List.append_nil]
  · by_cases h2 : P2
    · rw [if_neg h1, if_pos h2, if_pos (hiff.mpr (Or.inr h2)), hL h2, List.nil_append]
    · rw [if_neg h1, if_neg h2, if_neg (fun hp => (hiff.mp hp).elim h1 h2),
        List.append_nil]

theorem PF_succ {f : Nat} (hf : PF f) : PF (f + 1) := by
  intro held s h s' tr hok
  rw [shutF_succ] at hok
  by_cases hst : s.statusOf h = true
  · rw [if_pos hst] at hok
    injection hok with hh
    injection hh with h1 h2
    subst h1
    subst h2
    exact ⟨Post0.refl s, hids_nil s, hst⟩
  · have hstf : s.statusOf h = false := by
      cases hv : s.statusOf h
      · rfl
      · exact absurd hv hst
    rw [if_neg hst] at hok
    by_cases hch : Lk.ch h ∈ held
    · rw [if_pos hch] at hok
      cases hok
    · rw [if_neg hch] at hok
      split at hok
      · cases hok
      · rename_i s4 t1 hit1
        by_cases hhk : Lk.hk h ∈ held
        · rw [if_pos hhk] at hok
          cases hok
        · rw [if_neg hhk] at hok
          split at hok
          · cases hok
          · rename_i s6 t2 hit2
            injection hok with hh
            injection hh with h1 h2
            subst h1
            subst h2
            have hlt : h < s.status.length := statusOf_false_lt hstf
            obtain ⟨p1, h1s, hT1⟩ :=
              PL_of_PF hf (Lk.ch h :: held) (preS s h) (s.childrenOf h) s4 t1 hit1
            have hpreh : (preS s h).statusOf h = true := by
              rw [statusOf_preS hlt, if_pos rfl]
            have hs4h : s4.statusOf h = true := p1.mono h hpreh
            have hs5h : (drainHooks s4 h).statusOf h = true := hs4h
            obtain ⟨p2, hX2, hI2⟩ := PH_of_PF hf (Lk.hk h :: held) h (drainHooks s4 h)
              (s4.hooksOf h) s6 t2 hs5h hit2
            have hs6h : s6.statusOf h = true := p2.mono h hs5h
            have hpre_ne : ∀ x, x ≠ h → (preS s h).statusOf x = s.statusOf x := by
              intro x hne
              rw [statusOf_preS hlt, if_neg hne]
            have mono46 : ∀ x, s4.statusOf x = true → s6.statusOf x = true :=
              fun x hx => p2.mono x hx
            have monoAll : ∀ x, s.statusOf x = true → s6.statusOf x = true := by
              intro x hx
              have hxh : x ≠ h := by
                rintro rfl
                rw [hstf] at hx
                cases hx
              exact mono46 x (p1.mono x ((hpre_ne x hxh).trans hx))
            have flipTop : Flip s s6 h := ⟨hstf, hs6h⟩
            have flipSplit : ∀ x, x ≠ h →
                (Flip s s6 x ↔ (Flip (preS s h) s4 x ∨ Flip (drainHooks s4 h) s6 x)) := by
              intro x hne
              constructor
              · rintro ⟨ha, hb⟩
                exact (flip_or_pt (fun hx => p1.mono x hx) (fun hx => p2.mono x hx)).mp
                  ⟨(hpre_ne x hne).trans ha, hb⟩
              · rintro (hf1 | hf2)
                · exact ⟨(hpre_ne x hne).symm.trans hf1.1, p2.mono x hf1.2⟩
                · refine ⟨?_, hf2.2⟩
                  cases hv : s.statusOf x
                  · rfl
                  · have h4t := p1.mono x ((hpre_ne x hne).trans hv)
                    have h4f : s4.statusOf x = false := hf2.1
                    rw [h4t] at h4f
                    cases h4f
            have hch_pre : ∀ x, x ≠ h → (preS s h).childrenOf x = s.childrenOf x := by
              intro x hne
              rw [childrenOf_preS, if_neg hne]
            have hch_preh : (preS s h).childrenOf h = [] := by
              rw [childrenOf_preS, if_pos rfl]
            have hch5 : ∀ x, (drainHooks s4 h).childrenOf x = s4.childrenOf x :=
              fun x => rfl
            have hhk5ne : ∀ x, x ≠ h → (drainHooks s4 h).hooksOf x = s4.hooksOf x :=
              fun x hne => hooksOf_drainHooks_ne s4 (fun e => hne e.symm)
            have hhk5h : (drainHooks s4 h).hooksOf h = [] := hooksOf_drainHooks_self s4 h
            have hkh4 : s4.hooksOf h = s.hooksOf h :=
              ((p1.drainH h).2 (flip_not_of_true hpreh)).trans (hooksOf_preS s h h)
            refine ⟨⟨?_, ?_, ?_, ?_, ?_, ?_, monoAll, ?_, ?_, ?_, ?_, ?_⟩, ?_, hs6h⟩
            · rw [p2.lenStatus, show (drainHooks s4 h).status.length = s4.status.length
                from rfl, p1.lenStatus, (lens_preS s h).1]
            · rw [p2.lenChildren, show (drainHooks s4 h).children.length
                = s4.children.length from rfl, p1.lenChildren, (lens_preS s h).2.1]
            · rw [p2.lenHooks, hooks_length_drainHooks, p1.lenHooks,
                (lens_preS s h).2.2.1]
            · rw [p2.lenSent, show (drainHooks s4 h).sent.length = s4.sent.length
                from rfl, p1.lenSent, (lens_preS s h).2.2.2.1]
            · rw [p2.nh, show (drainHooks s4 h).nextHook = s4.nextHook from rfl,
                p1.nh, (lens_preS s h).2.2.2.2.1]
            · rw [p2.ns, show (drainHooks s4 h).nextSub = s4.nextSub from rfl,
                p1.ns, (lens_preS s h).2.2.2.2.2]
            · intro x
              by_cases hxh : x = h
              · subst hxh
                constructor
                · intro _
                  by_cases hf4 : Flip (drainHooks s4 x) s6 x
                  · exact (p2.drainC x).1 hf4
                  · rw [(p2.drainC x).2 hf4]
                    by_cases hf1 : Flip (preS s x) s4 x
                    · exact (hch5 x).trans ((p1.drainC x).1 hf1)
                    · exact (hch5 x).trans (((p1.drainC x).2 hf1).trans hch_preh)
                · intro hnf
                  exact absurd flipTop hnf
              · constructor
                · intro hf
                  rcases (flipSplit x hxh).mp hf with hf1 | hf2
                  · rw [(p2.drainC x).2 (flip_not_of_true hf1.2), hch5 x,
                      (p1.drainC x).1 hf1]
                  · exact (p2.drainC x).1 hf2
                · intro hnf
                  have hn1 : ¬ Flip (preS s h) s4 x :=
                    fun hh => hnf ((flipSplit x hxh).mpr (Or.inl hh))
                  have hn2 : ¬ Flip (drainHooks s4 h) s6 x :=
                    fun hh => hnf ((flipSplit x hxh).mpr (Or.inr hh))
                  rw [(p2.drainC x).2 hn2, hch5 x, (p1.drainC x).2 hn1,
                    hch_pre x hxh]
            · intro x
              by_cases hxh : x = h
              · subst hxh
                constructor
                · intro _
                  by_cases hf4 : Flip (drainHooks s4 x) s6 x
                  · exact (p2.drainH x).1 hf4
                  · rw [(p2.drainH x).2 hf4]
                    exact hhk5h
                · intro hnf
                  exact absurd flipTop hnf
              · constructor
                · intro hf
                  rcases (flipSplit x hxh).mp hf with hf1 | hf2
                  · rw [(p2.drainH x).2 (flip_not_of_true hf1.2), hhk5ne x hxh,
                      (p1.drainH x).1 hf1]
                  · exact (p2.drainH x).1 hf2
                · intro hnf
                  have hn1 : ¬ Flip (preS s h) s4 x :=
                    fun hh => hnf ((flipSplit x hxh).mpr (Or.inl hh))
                  have hn2 : ¬ Flip (drainHooks s4 h) s6 x :=
                    fun hh => hnf ((flipSplit x hxh).mpr (Or.inr hh))
                  rw [(p2.drainH x).2 hn2, hhk5ne x hxh, (p1.drainH x).2 hn1,
                    hooksOf_preS s h x]
            · intro x C hfx hC
              by_cases hxh : x = h
              · subst hxh
                exact mono46 C (hT1 C hC)
              · rcases (flipSplit x hxh).mp hfx with hf1 | hf2
                · exact mono46 C (p1.propag x C hf1 ((hch_pre x hxh).symm ▸ hC))
                · have hn1 : ¬ Flip (preS s h) s4 x := by
                    intro hfp
                    have h4t : s4.statusOf x = true := hfp.2
                    have h4f : s4.statusOf x = false := hf2.1
                    rw [h4t] at h4f
                    cases h4f
                  have hc4 : (drainHooks s4 h).childrenOf x = s.childrenOf x :=
                    (hch5 x).trans (((p1.drainC x).2 hn1).trans (hch_pre x hxh))
                  exact p2.propag x C hf2 (hc4.symm ▸ hC)
            · intro x
              rw [show fireCount x (Ev.fire h :: (t1 ++ t2))
                = (if h = x then 1 else 0) + (fireCount x t1 + fireCount x t2)
                from by rw [fireCount_cons_fire, fireCount_append]]
              by_cases hxh : x = h
              · subst hxh
                rw [if_pos rfl, p1.fireC x, p2.fireC x, if_neg (flip_not_of_true hpreh),
                  if_neg (flip_not_of_true hs5h), if_pos flipTop]
              · rw [if_neg (fun e => hxh e.symm), p1.fireC x, p2.fireC x,
                  comp_count (flipSplit x hxh) (fun a => flip_not_of_true a.2),
                  Nat.zero_add]
            · rw [p2.subsEq, show (drainHooks s4 h).subs = s4.subs from rfl,
                p1.subsEq, subs_preS, List.map_map, List.map_map]
              refine congrArg (fun g => List.map g s.subs) (funext fun sub => ?_)
              by_cases hP1 : sub.handle = h
              · have c1 : ¬ Flip (preS s h) s4 sub.handle := by
                  rw [hP1]
                  exact flip_not_of_true hpreh
                have c2 : ¬ Flip (drainHooks s4 h) s6 sub.handle := by
                  rw [hP1]
                  exact flip_not_of_true hs5h
                have c1h : ¬ Flip (preS s h) s4 h := flip_not_of_true hpreh
                have c2h : ¬ Flip (drainHooks s4 h) s6 h := flip_not_of_true hs5h
                simp [Function.comp, hP1, c1, c2, c1h, c2h, flipTop]
              · by_cases hQ1 : Flip (preS s h) s4 sub.handle
                · have c2 : ¬ Flip (drainHooks s4 h) s6 sub.handle :=
                    flip_not_of_true hQ1.2
                  have c3 : Flip s s6 sub.handle := (flipSplit sub.handle hP1).mpr
                    (Or.inl hQ1)
                  simp [Function.comp, hP1, hQ1, c2, c3]
                · by_cases hQ2 : Flip (drainHooks s4 h) s6 sub.handle
                  · have c3 : Flip s s6 sub.handle := (flipSplit sub.handle hP1).mpr
                      (Or.inr hQ2)
                    simp [Function.comp, hP1, hQ1, hQ2, c3]
                  · have c3 : ¬ Flip s s6 sub.handle := fun hp =>
                      ((flipSplit sub.handle hP1).mp hp).elim hQ1 hQ2
                    simp [Function.comp, hP1, hQ1, hQ2, c3]
            · intro x
              rw [hookIdsOf_cons_fire, hookIdsOf_append]
              by_cases hxh : x = h
              · subst hxh
                rw [h1s x, if_neg (flip_not_of_true hpreh), List.nil_append, hI2,
                  hkh4, if_pos flipTop]
              · have hL : Flip (drainHooks s4 h) s6 x →
                    (s4.hooksOf x).map Prod.fst = (s.hooksOf x).map Prod.fst := by
                  intro hf2
                  have hn1 : ¬ Flip (preS s h) s4 x := by
                    intro hfp
                    have h4t : s4.statusOf x = true := hfp.2
                    have h4f : s4.statusOf x = false := hf2.1
                    rw [h4t] at h4f
                    cases h4f
                  rw [((p1.drainH x).2 hn1).trans (hooksOf_preS s h x)]
                rw [h1s x, hX2 x hxh, hooksOf_preS s h x, hhk5ne x hxh]
                exact comp_lists (flipSplit x hxh) (fun a => flip_not_of_true a.2) hL

theorem PF_all : ∀ f, PF f := by
  intro f
  induction f with
  | zero =>
    intro held s h s' tr hok
    rw [show shutF 0 held s h = Except.error Err.outOfFuel from rfl] at hok
    cases hok
  | succ f ih => exact PF_succ ih

theorem PL_all (f : Nat) : PL f := PL_of_PF (PF_all f)

theorem PH_all (f : Nat) : PH f := PH_of_PF (PF_all f)

/-! ### Locks held by the thread, fuel sufficiency, and deadlock freedom -/

/-- Every lock currently held by the running thread belongs to a handle that
was already shut when that lock was taken (and statuses never fall). -/
def HeldShut (held : List Lk) (s : St) : Prop :=
  ∀ l ∈ held, s.statusOf l.owner = true

theorem heldShut_nil (s : St) : HeldShut [] s := by
  intro l hl
  cases hl

theorem heldShut_mono {held : List Lk} {s t : St} (hh : HeldShut held s)
    (m : ∀ x, s.statusOf x = true → t.statusOf x = true) : HeldShut held t :=
  fun l hl => m _ (hh l hl)

theorem statusOf_preS_mono {s : St} {h : Nat} (hlt : h < s.status.length) :
    ∀ x, s.statusOf x = true → (preS s h).statusOf x = true := by
  intro x hx
  rw [statusOf_preS hlt]
  by_cases hxh : x = h
  · rw [if_pos hxh]
  · rw [if_neg hxh]
    exact hx

theorem falseCount_le_length (l : List Bool) : falseCount l ≤ l.length := by
  induction l with
  | nil => exact Nat.le_refl _
  | cons b t ih => cases b <;> simp [falseCount] <;> omega

theorem unshut_le (s : St) : unshutCount s ≤ s.numHandles :=
  falseCount_le_length s.status

theorem unshut_post0 {s t : St} {tr : List Ev} (p : Post0 s t tr) :
    unshutCount t ≤ unshutCount s :=
  falseCount_le_of_mono p.lenStatus (fun x hx => p.mono x hx)

theorem unshut_preS {s : St} {h : Nat} (hst : s.statusOf h = false) :
    unshutCount (preS s h) + 1 = unshutCount s :=
  falseCount_set_true (statusOf_false_lt hst) hst

theorem unshut_drainHooks (s : St) (h : Nat) :
    unshutCount (drainHooks s h) = unshutCount s := rfl

/-- Fuel-sufficiency package for `shutF`: with fuel above the number of
not-yet-shut handles the call succeeds, and extra fuel does not change the
result (so the Rust recursion, which has no fuel, terminates with exactly
this result). -/
def QF (f : Nat) : Prop := ∀ held s h, HeldShut held s → unshutCount s < f →
  (∃ s' tr, shutF f held s h = .ok (s', tr)) ∧
  shutF (f + 1) held s h = shutF f held s h

/-- Fuel-sufficiency package for the children loop. -/
def QL (f : Nat) : Prop := ∀ held s l, HeldShut held s → unshutCount s < f →
  (∃ s' tr, iterE (shutF f held) s l = .ok (s', tr)) ∧
  iterE (shutF (f + 1) held) s l = iterE (shutF f held) s l

/-- Fuel-sufficiency package for the hooks loop. -/
def QH (f : Nat) : Prop := ∀ held hx s l, HeldShut held s → unshutCount s < f →
  (∃ s' tr, iterE (runHook f held hx) s l = .ok (s', tr)) ∧
  iterE (runHook (f + 1) held hx) s l = iterE (runHook f held hx) s l

theorem ne_true_of_false {b : Bool} (h : b = false) : ¬ b = true := by
  intro hh
  rw [h] at hh
  cases hh

theorem iterE_cons_ok {α : Type} {step : St → α → Except Err (St × List Ev)}
    {s : St} {x : α} {s1 : St} {t1 : List Ev} (xs : List α)
    (hx : step s x = .ok (s1, t1)) :
    iterE step s (x :: xs) =
      match iterE step s1 xs with
      | .error e => .error e
      | .ok (s2, t2) => .ok (s2, t1 ++ t2) := by
  rw [iterE_cons, hx]

theorem iterE_cons_ok_ok {α : Type} {step : St → α → Except Err (St × List Ev)}
    {s : St} {x : α} {xs : List α} {s1 s2 : St} {t1 t2 : List Ev}
    (hx : step s x = .ok (s1, t1)) (hxs : iterE step s1 xs = .ok (s2, t2)) :
    iterE step s (x :: xs) = .ok (s2, t1 ++ t2) := by
  rw [iterE_cons_ok xs hx, hxs]

theorem iterE_cons_err {α : Type} {step : St → α → Except Err (St × List Ev)}
    {s : St} {x : α} {e : Err} (xs : List α) (hx : step s x = .error e) :
    iterE step s (x :: xs) = .error e := by
  rw [iterE_cons, hx]

theorem iterE_cons_ok_err {α : Type} {step : St → α → Except Err (St × List Ev)}
    {s : St} {x : α} {xs : List α} {s1 : St} {t1 : List Ev} {e : Err}
    (hx : step s x = .ok (s1, t1)) (hxs : iterE step s1 xs = .error e) :
    iterE step s (x :: xs) = .error e := by
  rw [iterE_cons_ok xs hx, hxs]

theorem shutF_done {f : Nat} {held : List Lk} {s : St} {h : Nat}
    (hst : s.statusOf h = true) : shutF (f + 1) held s h = .ok (s, []) := by
  rw [shutF_succ, if_pos hst]

theorem shutF_succ_body {f : Nat} {held : List Lk} {s : St} {h : Nat}
    (hst : s.statusOf h = false) (hch : Lk.ch h ∉ held) :
    shutF (f + 1) held s h =
      (match iterE (shutF f (Lk.ch h :: held)) (preS s h) (s.childrenOf h) with
      | .error e => .error e
      | .ok (s4, tr1) =>
        if Lk.hk h ∈ held then .error .deadlock
        else
          match iterE (runHook f (Lk.hk h :: held) h) (drainHooks s4 h)
              (s4.hooksOf h) with
          | .error e => .error e
          | .ok (s6, tr2) => .ok (s6, Ev.fire h :: (tr1 ++ tr2))) := by
  rw [shutF_succ, if_neg (ne_true_of_false hst), if_neg hch]

theorem shutF_succ_ok {f : Nat} {held : List Lk} {s : St} {h : Nat} {s4 s6 : St}
    {t1 t2 : List Ev} (hst : s.statusOf h = false) (hch : Lk.ch h ∉ held)
    (hit1 : iterE (shutF f (Lk.ch h :: held)) (preS s h) (s.childrenOf h) = .ok (s4, t1))
    (hhk : Lk.hk h ∉ held)
    (hit2 : iterE (runHook f (Lk.hk h :: held) h) (drainHooks s4 h) (s4.hooksOf h)
      = .ok (s6, t2)) :
    shutF (f + 1) held s h = .ok (s6, Ev.fire h :: (t1 ++ t2)) := by
  rw [shutF_succ_body hst hch, hit1]
  show (if Lk.hk h ∈ held then Except.error Err.deadlock
    else match iterE (runHook f (Lk.hk h :: held) h) (drainHooks s4 h)
        (s4.hooksOf h) with
      | .error e => .error e
      | .ok (s6, tr2) => .ok (s6, Ev.fire h :: (t1 ++ tr2))) = _
  rw [if_neg hhk, hit2]

theorem shutF_succ_err1 {f : Nat} {held : List Lk} {s : St} {h : Nat} {e : Err}
    (hst : s.statusOf h = false) (hch : Lk.ch h ∉ held)
    (hit1 : iterE (shutF f (Lk.ch h :: held)) (preS s h) (s.childrenOf h) = .error e) :
    shutF (f + 1) held s h = .error e := by
  rw [shutF_succ_body hst hch, hit1]

theorem shutF_succ_err2 {f : Nat} {held : List Lk} {s : St} {h : Nat} {s4 : St}
    {t1 : List Ev} {e : Err} (hst : s.statusOf h = false) (hch : Lk.ch h ∉ held)
    (hit1 : iterE (shutF f (Lk.ch h :: held)) (preS s h) (s.childrenOf h) = .ok (s4, t1))
    (hhk : Lk.hk h ∉ held)
    (hit2 : iterE (runHook f (Lk.hk h :: held) h) (drainHooks s4 h) (s4.hooksOf h)
      = .error e) :
    shutF (f + 1) held s h = .error e := by
  rw [shutF_succ_body hst hch, hit1]
  show (if Lk.hk h ∈ held then Except.error Err.deadlock
    else match iterE (runHook f (Lk.hk h :: held) h) (drainHooks s4 h)
        (s4.hooksOf h) with
      | .error e => .error e
      | .ok (s6, tr2) => .ok (s6, Ev.fire h :: (t1 ++ tr2))) = _
  rw [if_neg hhk, hit2]

theorem runHook_none {f : Nat} {held : List Lk} {hx : Nat} {s : St} {k : Nat} :
    runHook f held hx s (k, none) = .ok (s, [Ev.hookRun hx k held]) := rfl

theorem runHook_some_ok {f : Nat} {held : List Lk} {hx : Nat} {s s1 : St} {k b : Nat}
    {trb : List Ev} (hsb : shutF f held s b = .ok (s1, trb)) :
    runHook f held hx s (k, some b) = .ok (s1, Ev.hookRun hx k held :: trb) := by
  rw [show runHook f held hx s (k, some b) = (match shutF f held s b with
    | .error e => .error e
    | .ok (t1, trc) => .ok (t1, Ev.hookRun hx k held :: trc)) from rfl, hsb]

theorem runHook_some_err {f : Nat} {held : List Lk} {hx : Nat} {s : St} {k b : Nat}
    {e : Err} (hsb : shutF f held s b = .error e) :
    runHook f held hx s (k, some b) = .error e := by
  rw [show runHook f held hx s (k, some b) = (match shutF f held s b with
    | .error e => .error e
    | .ok (t1, trc) => .ok (t1, Ev.hookRun hx k held :: trc)) from rfl, hsb]

theorem QL_of_QF {f : Nat} (hq : QF f) : QL f := by
  intro held s l
  induction l generalizing s with
  | nil =>
    intro hh hu
    exact ⟨⟨s, [], rfl⟩, rfl⟩
  | cons c cs ih =>
    intro hh hu
    obtain ⟨⟨s1, t1, hs1⟩, heq⟩ := hq held s c hh hu
    obtain ⟨p1, _, _⟩ := PF_all f held s c s1 t1 hs1
    have hh1 : HeldShut held s1 := heldShut_mono hh p1.mono
    have hu1 : unshutCount s1 < f := Nat.lt_of_le_of_lt (unshut_post0 p1) hu
    obtain ⟨⟨s2, t2, hs2⟩, heq2⟩ := ih s1 hh1 hu1
    refine ⟨⟨s2, t1 ++ t2, iterE_cons_ok_ok hs1 hs2⟩, ?_⟩
    rw [iterE_cons_ok_ok hs1 hs2, iterE_cons_ok_ok (heq.trans hs1) (heq2.trans hs2)]

theorem QH_of_QF {f : Nat} (hq : QF f) : QH f := by
  intro held hx s l
  induction l generalizing s with
  | nil =>
    intro hh hu
    exact ⟨⟨s, [], rfl⟩, rfl⟩
  | cons hk rest ih =>
    intro hh hu
    obtain ⟨k, body⟩ := hk
    cases body with
    | none =>
      obtain ⟨⟨s2, t2, hs2⟩, heq2⟩ := ih s hh hu
      refine ⟨⟨s2, [Ev.hookRun hx k held] ++ t2, iterE_cons_ok_ok runHook_none hs2⟩, ?_⟩
      rw [iterE_cons_ok_ok runHook_none hs2,
        iterE_cons_ok_ok runHook_none (heq2.trans hs2)]
    | some b =>
      obtain ⟨⟨s1, trb, hsb⟩, heqb⟩ := hq held s b hh hu
      obtain ⟨p1, _, _⟩ := PF_all f held s b s1 trb hsb
      have hh1 : HeldShut held s1 := heldShut_mono hh p1.mono
      have hu1 : unshutCount s1 < f := Nat.lt_of_le_of_lt (unshut_post0 p1) hu
      obtain ⟨⟨s2, t2, hs2⟩, heq2⟩ := ih s1 hh1 hu1
      refine ⟨⟨s2, (Ev.hookRun hx k held :: trb) ++ t2,
        iterE_cons_ok_ok (runHook_some_ok hsb) hs2⟩, ?_⟩
      rw [iterE_cons_ok_ok (runHook_some_ok hsb) hs2,
        iterE_cons_ok_ok (runHook_some_ok (heqb.trans hsb)) (heq2.trans hs2)]

theorem QF_succ {f : Nat} (ql : QL f) (qh : QH f) : QF (f + 1) := by
  intro held s h hh hu
  by_cases hst : s.statusOf h = true
  · exact ⟨⟨s, [], shutF_done hst⟩, by rw [shutF_done hst, shutF_done hst]⟩
  · have hstf : s.statusOf h = false := by
      cases hv : s.statusOf h
      · rfl
      · exact absurd hv hst
    have hlt : h < s.status.length := statusOf_false_lt hstf
    have hch : Lk.ch h ∉ held := by
      intro hmem
      have hcontra : s.statusOf h = true := hh (Lk.ch h) hmem
      rw [hstf] at hcontra
      cases hcontra
    have hhk : Lk.hk h ∉ held := by
      intro hmem
      have hcontra : s.statusOf h = true := hh (Lk.hk h) hmem
      rw [hstf] at hcontra
      cases hcontra
    have hpreh : (preS s h).statusOf h = true := by
      rw [statusOf_preS hlt, if_pos rfl]
    have hh3 : HeldShut (Lk.ch h :: held) (preS s h) := by
      intro l hl
      rcases List.mem_cons.mp hl with hle | hlm
      · subst hle
        exact hpreh
      · exact statusOf_preS_mono hlt _ (hh l hlm)
    have hu3 : unshutCount (preS s h) < f := by
      have := unshut_preS hstf
      omega
    obtain ⟨⟨s4, t1, hs4⟩, heqL⟩ := ql (Lk.ch h :: held) (preS s h) (s.childrenOf h) hh3 hu3
    obtain ⟨p1, _, _⟩ := PL_all f (Lk.ch h :: held) (preS s h) (s.childrenOf h) s4 t1 hs4
    have hh5 : HeldShut (Lk.hk h :: held) (drainHooks s4 h) := by
      intro l hl
      rcases List.mem_cons.mp hl with hle | hlm
      · subst hle
        exact p1.mono h hpreh
      · exact p1.mono _ (statusOf_preS_mono hlt _ (hh l hlm))
    have hu5 : unshutCount (drainHooks s4 h) < f := by
      rw [unshut_drainHooks]
      exact Nat.lt_of_le_of_lt (unshut_post0 p1) hu3
    obtain ⟨⟨s6, t2, hs6⟩, heqH⟩ :=
      qh (Lk.hk h :: held) h (drainHooks s4 h) (s4.hooksOf h) hh5 hu5
    refine ⟨⟨s6, Ev.fire h :: (t1 ++ t2), shutF_succ_ok hstf hch hs4 hhk hs6⟩, ?_⟩
    rw [shutF_succ_ok hstf hch hs4 hhk hs6,
      shutF_succ_ok hstf hch (heqL.trans hs4) hhk (heqH.trans hs6)]

theorem QF_all : ∀ f, QF f := by
  intro f
  induction f with
  | zero =>
    intro held s h _ hu
    omega
  | succ f ih => exact QF_succ (QL_of_QF ih) (QH_of_QF ih)

/-- `shutF` never reports a deadlock when every held lock belongs to an
already-shut handle (in particular when no lock is held): the only lock a
`shut` body acquires is that of its own, freshly flipped handle, which the
idempotence check proves was not previously locked by this thread. -/
def DF (f : Nat) : Prop := ∀ held s h, HeldShut held s →
  shutF f held s h ≠ .error .deadlock

/-- Deadlock freedom package for the children loop. -/
def DL (f : Nat) : Prop := ∀ held s l, HeldShut held s →
  iterE (shutF f held) s l ≠ .error .deadlock

/-- Deadlock freedom package for the hooks loop. -/
def DH (f : Nat) : Prop := ∀ held hx s l, HeldShut held s →
  iterE (runHook f held hx) s l ≠ .error .deadlock

theorem DL_of_DF {f : Nat} (df : DF f) : DL f := by
  intro held s l
  induction l generalizing s with
  | nil =>
    intro hh hne
    rw [iterE_nil] at hne
    cases hne
  | cons c cs ih =>
    intro hh hne
    rcases hsx : shutF f held s c with e | ⟨s1, t1⟩
    · rw [iterE_cons_err cs hsx] at hne
      injection hne with he
      subst he
      exact df held s c hh hsx
    · rcases hrest : iterE (shutF f held) s1 cs with e | ⟨s2, t2⟩
      · rw [iterE_cons_ok_err hsx hrest] at hne
        injection hne with he
        subst he
        obtain ⟨p1, _, _⟩ := PF_all f held s c s1 t1 hsx
        exact ih s1 (heldShut_mono hh p1.mono) hrest
      · rw [iterE_cons_ok_ok hsx hrest] at hne
        cases hne

theorem DH_of_DF {f : Nat} (df : DF f) : DH f := by
  intro held hx s l
  induction l generalizing s with
  | nil =>
    intro hh hne
    rw [iterE_nil] at hne
    cases hne
  | cons hk rest ih =>
    intro hh hne
    obtain ⟨k, body⟩ := hk
    cases body with
    | none =>
      rcases hrest : iterE (runHook f held hx) s rest with e | ⟨s2, t2⟩
      · rw [iterE_cons_ok_err runHook_none hrest] at hne
        injection hne with he
        subst he
        exact ih s hh hrest
      · rw [iterE_cons_ok_ok runHook_none hrest] at hne
        cases hne
    | some b =>
      rcases hsb : shutF f held s b with e | ⟨s1, trb⟩
      · rw [iterE_cons_err rest (runHook_some_err hsb)] at hne
        injection hne with he
        subst he
        exact df held s b hh hsb
      · rcases hrest : iterE (runHook f held hx) s1 rest with e | ⟨s2, t2⟩
        · rw [iterE_cons_ok_err (runHook_some_ok hsb) hrest] at hne
          injection hne with he
          subst he
          obtain ⟨p1, _, _⟩ := PF_all f held s b s1 trb hsb
          exact ih s1 (heldShut_mono hh p1.mono) hrest
        · rw [iterE_cons_ok_ok (runHook_some_ok hsb) hrest] at hne
          cases hne

theorem DF_succ {f : Nat} (dl : DL f) (dh : DH f) : DF (f + 1) := by
  intro held s h hh hne
  by_cases hst : s.statusOf h = true
  · rw [shutF_done hst] at hne
    cases hne
  · have hstf : s.statusOf h = false := by
      cases hv : s.statusOf h
      · rfl
      · exact absurd hv hst
    have hlt : h < s.status.length := statusOf_false_lt hstf
    have hch : Lk.ch h ∉ held := by
      intro hmem
      have hcontra : s.statusOf h = true := hh (Lk.ch h) hmem
      rw [hstf] at hcontra
      cases hcontra
    have hhk : Lk.hk h ∉ held := by
      intro hmem
      have hcontra : s.statusOf h = true := hh (Lk.hk h) hmem
      rw [hstf] at hcontra
      cases hcontra
    have hpreh : (preS s h).statusOf h = true := by
      rw [statusOf_preS hlt, if_pos rfl]
    have hh3 : HeldShut (Lk.ch h :: held) (preS s h) := by
      intro l hl
      rcases List.mem_cons.mp hl with hle | hlm
      · subst hle
        exact hpreh
      · exact statusOf_preS_mono hlt _ (hh l hlm)
    rcases hit1 : iterE (shutF f (Lk.ch h :: held)) (preS s h) (s.childrenOf h)
      with e | ⟨s4, t1⟩
    · rw [shutF_succ_err1 hstf hch hit1] at hne
      injection hne with he
      subst he
      exact dl _ _ _ hh3 hit1
    · obtain ⟨p1, _, _⟩ := PL_all f (Lk.ch h :: held) (preS s h) (s.childrenOf h) s4 t1 hit1
      have hh5 : HeldShut (Lk.hk h :: held) (drainHooks s4 h) := by
        intro l hl
        rcases List.mem_cons.mp hl with hle | hlm
        · subst hle
          exact p1.mono h hpreh
        · exact p1.mono _ (statusOf_preS_mono hlt _ (hh l hlm))
      rcases hit2 : iterE (runHook f (Lk.hk h :: held) h) (drainHooks s4 h) (s4.hooksOf h)
        with e | ⟨s6, t2⟩
      · rw [shutF_succ_err2 hstf hch hit1 hhk hit2] at hne
        injection hne with he
        subst he
        exact dh _ _ _ _ hh5 hit2
      · rw [shutF_succ_ok hstf hch hit1 hhk hit2] at hne
        cases hne

theorem DF_all : ∀ f, DF f := by
  intro f
  induction f with
  | zero =>
    intro held s h _ hne
    rw [show shutF 0 held s h = Except.error Err.outOfFuel from rfl] at hne
    injection hne with he
    cases he
  | succ f ih => exact DF_succ (DL_of_DF ih) (DH_of_DF ih)

/-! ### Operation-level lemmas -/

theorem getD_append_default {α : Type} (l : List α) (d : α) (x : Nat) :
    (l ++ [d]).getD x d = l.getD x d := by
  rcases Nat.lt_trichotomy x l.length with hlt | heq | hgt
  · exact getD_append_left _ _ _ _ hlt
  · subst heq
    rw [getD_append_len, getD_oob _ _ (Nat.le_refl _)]
  · rw [getD_oob _ _ (by simp; omega), getD_oob _ _ (Nat.le_of_lt hgt)]

theorem exec_root (s : St) : exec s .root = .ok (newHandle s, []) := rfl

theorem exec_child {s : St} {p : Nat} (hv : p < s.numHandles) :
    exec s (.child p) = .ok (pushChild (newHandle s) p s.numHandles, []) := by
  rw [show exec s (.child p) = (if p < s.numHandles then
    .ok (pushChild (newHandle s) p s.numHandles, []) else .error .invalid) from rfl,
    if_pos hv]

theorem exec_adopt {s : St} {p c : Nat} (hv : p < s.numHandles ∧ c < s.numHandles) :
    exec s (.adopt p c) = .ok (pushChild s p c, []) := by
  rw [show exec s (.adopt p c) = (if p < s.numHandles ∧ c < s.numHandles then
    .ok (pushChild s p c, []) else .error .invalid) from rfl, if_pos hv]

theorem exec_wait {s : St} {h : Nat} (hv : h < s.numHandles) :
    exec s (.wait h) = .ok ({ s with subs := s.subs ++ [⟨h, s.nextSub, false⟩], nextSub := s.nextSub + 1 }, []) := by
  rw [show exec s (.wait h) = (if h < s.numHandles then
    .ok ({ s with subs := s.subs ++ [⟨h, s.nextSub, false⟩], nextSub := s.nextSub + 1 }, [])
    else .error .invalid) from rfl, if_pos hv]

theorem exec_registerHook {s : St} {h : Nat} {body : Option Nat}
    (hv : h < s.numHandles ∧ bodyOK body s.numHandles) :
    exec s (.registerHook h body) =
      .ok ({ s with hooks := s.hooks.set h (s.hooksOf h ++ [(s.nextHook, body)]), nextHook := s.nextHook + 1 }, []) := by
  rw [show exec s (.registerHook h body)
    = (if h < s.numHandles ∧ bodyOK body s.numHandles then
      .ok ({ s with hooks := s.hooks.set h (s.hooksOf h ++ [(s.nextHook, body)]), nextHook := s.nextHook + 1 }, [])
      else .error .invalid) from rfl, if_pos hv]

theorem exec_shut_eq {s : St} {h : Nat} (hv : h < s.numHandles) :
    exec s (.shut h) = shutF (s.numHandles + 1) [] s h := by
  rw [show exec s (.shut h) = (if h < s.numHandles then
    shutF (s.numHandles + 1) [] s h else .error .invalid) from rfl, if_pos hv]

/-- With the canonical fuel `numHandles + 1` and no lock held, a `shut` call
always succeeds: the fuel bound covers the recursion for every children
relation, cyclic ones included. -/
theorem shut_total (s : St) (h : Nat) :
    ∃ s' tr, shutF (s.numHandles + 1) [] s h = .ok (s', tr) :=
  (QF_all (s.numHandles + 1) [] s h (heldShut_nil s)
    (Nat.lt_succ_of_le (unshut_le s))).1

theorem exec_shut_ok {s : St} {h : Nat} (hv : h < s.numHandles) :
    ∃ s' tr, exec s (.shut h) = .ok (s', tr) ∧ Post0 s s' tr ∧ Hids s s' tr ∧
      s'.statusOf h = true := by
  obtain ⟨s', tr, hok⟩ := shut_total s h
  obtain ⟨p, hi, hs⟩ := PF_all _ _ _ _ _ _ hok
  exact ⟨s', tr, by rw [exec_shut_eq hv, hok], p, hi, hs⟩

theorem run_nil (s : St) : run s [] = .ok (s, []) := rfl

theorem run_cons {s : St} {op : Op} {rest : List Op} {s1 : St} {t1 : List Ev}
    (hx : exec s op = .ok (s1, t1)) :
    run s (op :: rest) =
      match run s1 rest with
      | .error e => .error e
      | .ok (s2, t2) => .ok (s2, t1 ++ t2) := by
  rw [show run s (op :: rest) = (match exec s op with
    | .error e => .error e
    | .ok (s1, t1) =>
      match run s1 rest with
      | .error e => .error e
      | .ok (s2, t2) => .ok (s2, t1 ++ t2)) from rfl, hx]

theorem run_cons_ok {s : St} {op : Op} {rest : List Op} {s1 s2 : St}
    {t1 t2 : List Ev} (hx : exec s op = .ok (s1, t1))
    (hrest : run s1 rest = .ok (s2, t2)) :
    run s (op :: rest) = .ok (s2, t1 ++ t2) := by
  rw [run_cons hx, hrest]

/-! ### Facts about handle creation -/

theorem numHandles_newHandle (s : St) : (newHandle s).numHandles = s.numHandles + 1 := by
  simp [newHandle, St.numHandles]

theorem statusOf_newHandle_old {s : St} {x : Nat} (hx : x < s.numHandles) :
    (newHandle s).statusOf x = s.statusOf x :=
  getD_append_left _ _ _ _ hx

theorem statusOf_newHandle_new (s : St) :
    (newHandle s).statusOf s.numHandles = false :=
  getD_append_len s.status false true

theorem childrenOf_newHandle (s : St) (x : Nat) :
    (newHandle s).childrenOf x = s.childrenOf x :=
  getD_append_default s.children [] x

theorem hooksOf_newHandle (s : St) (x : Nat) :
    (newHandle s).hooksOf x = s.hooksOf x :=
  getD_append_default s.hooks [] x

theorem statusOf_pushChild (s : St) (p c x : Nat) :
    (pushChild s p c).statusOf x = s.statusOf x := rfl

theorem hooksOf_pushChild (s : St) (p c x : Nat) :
    (pushChild s p c).hooksOf x = s.hooksOf x := rfl

/-! ### The bag of registered hook ids -/

/-- All hook ids currently stored in a list of hooks lists. -/
def idsBag : List (List Hook) → List Nat
  | [] => []
  | l :: ls => l.map Prod.fst ++ idsBag ls

/-- All hook ids currently registered anywhere in the state. -/
def hookBag (s : St) : List Nat := idsBag s.hooks

theorem mem_idsBag {L : List (List Hook)} {x k : Nat}
    (hk : k ∈ (L.getD x []).map Prod.fst) : k ∈ idsBag L := by
  induction L generalizing x with
  | nil =>
    rw [getD_oob _ _ (Nat.zero_le x)] at hk
    cases hk
  | cons l ls ih =>
    cases x with
    | zero =>
      exact List.mem_append_left _ hk
    | succ y =>
      exact List.mem_append_right _ (ih (by simpa using hk))

theorem mem_hookBag {s : St} {x k : Nat} (hk : k ∈ (s.hooksOf x).map Prod.fst) :
    k ∈ hookBag s :=
  mem_idsBag hk

theorem nodup_hooksOf_of_bag {s : St} (hn : (hookBag s).Nodup) (x : Nat) :
    ((s.hooksOf x).map Prod.fst).Nodup := by
  have : ∀ (L : List (List Hook)) (y : Nat), (idsBag L).Nodup →
      ((L.getD y []).map Prod.fst).Nodup := by
    intro L
    induction L with
    | nil =>
      intro y _
      rw [getD_oob _ _ (Nat.zero_le y)]
      exact List.nodup_nil
    | cons l ls ih =>
      intro y hnd
      cases y with
      | zero => exact hnd.of_append_left
      | succ z => exact ih z hnd.of_append_right
  exact this s.hooks x hn

theorem exec_child_err {s : St} {p : Nat} (hv : ¬ p < s.numHandles) :
    exec s (.child p) = .error .invalid := by
  rw [show exec s (.child p) = (if p < s.numHandles then
    .ok (pushChild (newHandle s) p s.numHandles, []) else .error .invalid) from rfl,
    if_neg hv]

theorem exec_adopt_err {s : St} {p c : Nat} (hv : ¬ (p < s.numHandles ∧ c < s.numHandles)) :
    exec s (.adopt p c) = .error .invalid := by
  rw [show exec s (.adopt p c) = (if p < s.numHandles ∧ c < s.numHandles then
    .ok (pushChild s p c, []) else .error .invalid) from rfl, if_neg hv]

theorem exec_wait_err {s : St} {h : Nat} (hv : ¬ h < s.numHandles) :
    exec s (.wait h) = .error .invalid := by
  rw [show exec s (.wait h) = (if h < s.numHandles then
    .ok ({ s with subs := s.subs ++ [⟨h, s.nextSub, false⟩], nextSub := s.nextSub + 1 }, [])
    else .error .invalid) from rfl, if_neg hv]

theorem exec_registerHook_err {s : St} {h : Nat} {body : Option Nat}
    (hv : ¬ (h < s.numHandles ∧ bodyOK body s.numHandles)) :
    exec s (.registerHook h body) = .error .invalid := by
  rw [show exec s (.registerHook h body)
    = (if h < s.numHandles ∧ bodyOK body s.numHandles then
      .ok ({ s with hooks := s.hooks.set h (s.hooksOf h ++ [(s.nextHook, body)]), nextHook := s.nextHook + 1 }, [])
      else .error .invalid) from rfl, if_neg hv]

theorem exec_shut_err {s : St} {h : Nat} (hv : ¬ h < s.numHandles) :
    exec s (.shut h) = .error .invalid := by
  rw [show exec s (.shut h) = (if h < s.numHandles then
    shutF (s.numHandles + 1) [] s h else .error .invalid) from rfl, if_neg hv]

/-- Everything a single successful API call can do to the state, as needed by
the lifecycle invariants: handle count and id counters only grow, statuses of
existing handles only rise, hook lists only keep old ids or gain fresh ones,
hook-run events only report hooks registered on a handle that flips, and old
subscriptions keep their identity and are woken only when their handle flips. -/
theorem exec_step {s : St} {op : Op} {s' : St} {tr : List Ev}
    (hex : exec s op = .ok (s', tr)) :
    s.numHandles ≤ s'.numHandles ∧
    s.nextSub ≤ s'.nextSub ∧
    s.nextHook ≤ s'.nextHook ∧
    (∀ x, x < s.numHandles → s.statusOf x = true → s'.statusOf x = true) ∧
    (∀ x k, k ∈ (s'.hooksOf x).map Prod.fst →
        k ∈ (s.hooksOf x).map Prod.fst ∨ s.nextHook ≤ k) ∧
    (∀ x k, k ∈ hookIdsOf x tr →
        k ∈ (s.hooksOf x).map Prod.fst ∧ s.statusOf x = false ∧ s'.statusOf x = true) ∧
    (∀ w ∈ s'.subs, (s.nextSub ≤ w.id ∧ w.resolved = false ∧ w.handle < s.numHandles) ∨
        ∃ w0 ∈ s.subs, w0.id = w.id ∧ w0.handle = w.handle ∧
          (w.resolved = w0.resolved ∨
            (w0.resolved = false ∧ w.resolved = true ∧ s.statusOf w0.handle = false ∧
              s'.statusOf w0.handle = true))) := by
  cases op with
  | root =>
    rw [exec_root] at hex
    injection hex with hh
    injection hh with h1 h2
    subst h1
    subst h2
    refine ⟨by rw [numHandles_newHandle]; omega, Nat.le_refl _, Nat.le_refl _, ?_, ?_, ?_, ?_⟩
    · intro x hx hst
      rw [statusOf_newHandle_old hx]
      exact hst
    · intro x k hk
      rw [hooksOf_newHandle] at hk
      exact Or.inl hk
    · intro x k hk
      cases hk
    · intro w hw
      exact Or.inr ⟨w, hw, rfl, rfl, Or.inl rfl⟩
  | child p =>
    by_cases hv : p < s.numHandles
    · rw [exec_child hv] at hex
      injection hex with hh
      injection hh with h1 h2
      subst h1
      subst h2
      refine ⟨?_, Nat.le_refl _, Nat.le_refl _, ?_, ?_, ?_, ?_⟩
      · show s.numHandles ≤ (pushChild (newHandle s) p s.numHandles).numHandles
        rw [show (pushChild (newHandle s) p s.numHandles).numHandles
          = (newHandle s).numHandles from rfl, numHandles_newHandle]
        omega
      · intro x hx hst
        rw [statusOf_pushChild, statusOf_newHandle_old hx]
        exact hst
      · intro x k hk
        rw [hooksOf_pushChild, hooksOf_newHandle] at hk
        exact Or.inl hk
      · intro x k hk
        cases hk
      · intro w hw
        exact Or.inr ⟨w, hw, rfl, rfl, Or.inl rfl⟩
    · rw [exec_child_err hv] at hex
      cases hex
  | adopt p c =>
    by_cases hv : p < s.numHandles ∧ c < s.numHandles
    · rw [exec_adopt hv] at hex
      injection hex with hh
      injection hh with h1 h2
      subst h1
      subst h2
      refine ⟨Nat.le_refl _, Nat.le_refl _, Nat.le_refl _, ?_, ?_, ?_, ?_⟩
      · intro x _ hst
        exact hst
      · intro x k hk
        exact Or.inl hk
      · intro x k hk
        cases hk
      · intro w hw
        exact Or.inr ⟨w, hw, rfl, rfl, Or.inl rfl⟩
    · rw [exec_adopt_err hv] at hex
      cases hex
  | wait h =>
    by_cases hv : h < s.numHandles
    · rw [exec_wait hv] at hex
      injection hex with hh
      injection hh with h1 h2
      subst h1
      subst h2
      refine ⟨Nat.le_refl _, Nat.le_succ _, Nat.le_refl _, ?_, ?_, ?_, ?_⟩
      · intro x _ hst
        exact hst
      · intro x k hk
        exact Or.inl hk
      · intro x k hk
        cases hk
      · intro w hw
        rcases List.mem_append.mp hw with hw0 | hw1
        · exact Or.inr ⟨w, hw0, rfl, rfl, Or.inl rfl⟩
        · rcases List.mem_singleton.mp hw1 with rfl
          exact Or.inl ⟨Nat.le_refl _, rfl, hv⟩
    · rw [exec_wait_err hv] at hex
      cases hex
  | registerHook h body =>
    by_cases hv : h < s.numHandles ∧ bodyOK body s.numHandles
    · rw [exec_registerHook hv] at hex
      injection hex with hh
      injection hh with h1 h2
      subst h1
      subst h2
      refine ⟨Nat.le_refl _, Nat.le_refl _, Nat.le_succ _, ?_, ?_, ?_, ?_⟩
      · intro x _ hst
        exact hst
      · intro x k hk
        show k ∈ (s.hooksOf x).map Prod.fst ∨ s.nextHook ≤ k
        have hkx : k ∈ ((s.hooks.set h (s.hooksOf h ++ [(s.nextHook, body)])).getD x
            []).map Prod.fst := hk
        by_cases hxh : h = x
        · subst hxh
          rcases Nat.lt_or_ge h s.hooks.length with hlen | hlen
          · rw [getD_set_self _ _ _ _ hlen, List.map_append] at hkx
            rcases List.mem_append.mp hkx with hk0 | hk1
            · exact Or.inl hk0
            · rcases List.mem_singleton.mp hk1 with rfl
              exact Or.inr (Nat.le_refl _)
          · rw [set_oob _ _ hlen] at hkx
            exact Or.inl hkx
        · rw [getD_set_ne _ _ _ hxh] at hkx
          exact Or.inl hkx
      · intro x k hk
        cases hk
      · intro w hw
        exact Or.inr ⟨w, hw, rfl, rfl, Or.inl rfl⟩
    · rw [exec_registerHook_err hv] at hex
      cases hex
  | shut h =>
    by_cases hv : h < s.numHandles
    · rw [exec_shut_eq hv] at hex
      obtain ⟨p0, hi, hsh⟩ := PF_all _ _ _ _ _ _ hex
      refine ⟨Nat.le_of_eq p0.lenStatus.symm, Nat.le_of_eq p0.ns.symm,
        Nat.le_of_eq p0.nh.symm, ?_, ?_, ?_, ?_⟩
      · intro x _ hst
        exact p0.mono x hst
      · intro x k hk
        by_cases hfl : Flip s s' x
        · rw [(p0.drainH x).1 hfl] at hk
          cases hk
        · rw [(p0.drainH x).2 hfl] at hk
          exact Or.inl hk
      · intro x k hk
        rw [hi x] at hk
        by_cases hfl : Flip s s' x
        · rw [if_pos hfl] at hk
          exact ⟨hk, hfl.1, hfl.2⟩
        · rw [if_neg hfl] at hk
          cases hk
      · intro w hw
        rw [p0.subsEq] at hw
        rcases List.mem_map.mp hw with ⟨w0, hw0, hgw⟩
        by_cases hfl : Flip s s' w0.handle
        · rw [if_pos hfl] at hgw
          subst hgw
          by_cases hres : w0.resolved = true
          · exact Or.inr ⟨w0, hw0, rfl, rfl, Or.inl hres.symm⟩
          · have hres2 : w0.resolved = false := by
              cases hb : w0.resolved
              · rfl
              · exact absurd hb hres
            exact Or.inr ⟨w0, hw0, rfl, rfl, Or.inr ⟨hres2, rfl, hfl.1, hfl.2⟩⟩
        · rw [if_neg hfl] at hgw
          subst hgw
          exact Or.inr ⟨w0, hw0, rfl, rfl, Or.inl rfl⟩
    · rw [exec_shut_err hv] at hex
      cases hex

theorem run_cons_err {s : St} {op : Op} {rest : List Op} {e : Err}
    (hx : exec s op = .error e) : run s (op :: rest) = .error e := by
  rw [show run s (op :: rest) = (match exec s op with
    | .error e => .error e
    | .ok (s1, t1) =>
      match run s1 rest with
      | .error e => .error e
      | .ok (s2, t2) => .ok (s2, t1 ++ t2)) from rfl, hx]

theorem run_cons_ok_err {s : St} {op : Op} {rest : List Op} {s1 : St} {t1 : List Ev}
    {e : Err} (hx : exec s op = .ok (s1, t1)) (hrest : run s1 rest = .error e) :
    run s (op :: rest) = .error e := by
  rw [run_cons hx, hrest]

/-- An invariant preserved by every successful call is preserved by every
successful run. -/
theorem run_preserve {I : St → Prop}
    (hstep : ∀ s op s2 tr, I s → exec s op = .ok (s2, tr) → I s2) :
    ∀ {s : St} {p : List Op} {s' : St} {tr : List Ev}, I s →
      run s p = .ok (s', tr) → I s' := by
  intro s p
  induction p generalizing s with
  | nil =>
    intro s' tr hI hr
    rw [run_nil] at hr
    injection hr with hh
    injection hh with h1 h2
    subst h1
    exact hI
  | cons op rest ih =>
    intro s' tr hI hr
    rcases hx : exec s op with e | ⟨s1, t1⟩
    · rw [run_cons_err hx] at hr
      cases hr
    · rcases hrest : run s1 rest with e | ⟨s2, t2⟩
      · rw [run_cons_ok_err hx hrest] at hr
        cases hr
      · rw [run_cons_ok hx hrest] at hr
        injection hr with hh
        injection hh with h1 h2
        subst h1
        exact ih (hstep s op s1 t1 hI hx) hrest

/-- An invariant that additionally rules out an event is preserved along a
run, and the event never appears in the run trace. -/
theorem run_preserve_ev {I : St → Prop} {bad : Ev → Prop}
    (hstep : ∀ s op s2 tr, I s → exec s op = .ok (s2, tr) →
      I s2 ∧ ∀ e ∈ tr, ¬ bad e) :
    ∀ {s : St} {p : List Op} {s' : St} {tr : List Ev}, I s →
      run s p = .ok (s', tr) → I s' ∧ ∀ e ∈ tr, ¬ bad e := by
  intro s p
  induction p generalizing s with
  | nil =>
    intro s' tr hI hr
    rw [run_nil] at hr
    injection hr with hh
    injection hh with h1 h2
    subst h1
    subst h2
    exact ⟨hI, by intro e he; cases he⟩
  | cons op rest ih =>
    intro s' tr hI hr
    rcases hx : exec s op with e | ⟨s1, t1⟩
    · rw [run_cons_err hx] at hr
      cases hr
    · rcases hrest : run s1 rest with e | ⟨s2, t2⟩
      · rw [run_cons_ok_err hx hrest] at hr
        cases hr
      · rw [run_cons_ok hx hrest] at hr
        injection hr with hh
        injection hh with h1 h2
        subst h1
        subst h2
        obtain ⟨hI1, hb1⟩ := hstep s op s1 t1 hI hx
        obtain ⟨hI2, hb2⟩ := ih hI1 hrest
        refine ⟨hI2, ?_⟩
        intro e he
        rcases List.mem_append.mp he with he1 | he2
        · exact hb1 e he1
        · exact hb2 e he2

/-! ### Definitions and helpers used by the claim theorems -/

theorem valid_of_exec_shut {s : St} {h : Nat} {s' : St} {tr : List Ev}
    (hex : exec s (.shut h) = .ok (s', tr)) : h < s.numHandles := by
  by_contra hv
  rw [exec_shut_err hv] at hex
  cases hex

theorem post_of_exec_shut {s : St} {h : Nat} {s' : St} {tr : List Ev}
    (hex : exec s (.shut h) = .ok (s', tr)) :
    Post0 s s' tr ∧ Hids s s' tr ∧ s'.statusOf h = true := by
  have hv := valid_of_exec_shut hex
  rw [exec_shut_eq hv] at hex
  exact PF_all _ _ _ _ _ _ hex

/-- The locks recorded on an event (empty for a `fire` event). -/
def evLocks : Ev → List Lk
  | .fire _ => []
  | .hookRun _ _ held => held

/-- The "operates on the drained copy outside the lock" part of the claim:
every hook invocation in the trace happens with no mutex held. -/
def HooksLockFree (tr : List Ev) : Prop := ∀ e ∈ tr, evLocks e = []

/-- No call of the public API can deadlock: the only lock `shut` acquires
while other locks are held belongs to its own handle, whose status flag was
necessarily `false` on entry, while held locks belong to already-`true`
handles. -/
theorem exec_no_deadlock (s : St) (op : Op) : exec s op ≠ .error .deadlock := by
  cases op with
  | root =>
    rw [exec_root]
    intro hh
    cases hh
  | child p =>
    by_cases hv : p < s.numHandles
    · rw [exec_child hv]
      intro hh
      cases hh
    · rw [exec_child_err hv]
      intro hh
      injection hh with he
      cases he
  | adopt p c =>
    by_cases hv : p < s.numHandles ∧ c < s.numHandles
    · rw [exec_adopt hv]
      intro hh
      cases hh
    · rw [exec_adopt_err hv]
      intro hh
      injection hh with he
      cases he
  | wait h =>
    by_cases hv : h < s.numHandles
    · rw [exec_wait hv]
      intro hh
      cases hh
    · rw [exec_wait_err hv]
      intro hh
      injection hh with he
      cases he
  | registerHook h body =>
    by_cases hv : h < s.numHandles ∧ bodyOK body s.numHandles
    · rw [exec_registerHook hv]
      intro hh
      cases hh
    · rw [exec_registerHook_err hv]
      intro hh
      injection hh with he
      cases he
  | shut h =>
    by_cases hv : h < s.numHandles
    · rw [exec_shut_eq hv]
      exact DF_all _ [] s h (heldShut_nil s)
    · rw [exec_shut_err hv]
      intro hh
      injection hh with he
      cases he

theorem run_no_deadlock (s : St) (p : List Op) : run s p ≠ .error .deadlock := by
  induction p generalizing s with
  | nil =>
    rw [run_nil]
    intro hh
    cases hh
  | cons op rest ih =>
    rcases hx : exec s op with e | ⟨s1, t1⟩
    · rw [run_cons_err hx]
      intro hh
      injection hh with he
      subst he
      exact exec_no_deadlock s op hx
    · rcases hrest : run s1 rest with e | ⟨s2, t2⟩
      · rw [run_cons_ok_err hx hrest]
        intro hh
        injection hh with he
        subst he
        exact ih s1 hrest
      · rw [run_cons_ok hx hrest]
        intro hh
        cases hh

/-- Reachability from `p` along children links through not-yet-shut handles. -/
inductive ReachU (s : St) (p : Nat) : Nat → Prop where
  | refl : ReachU s p p
  | step {x c : Nat} : ReachU s p x → s.statusOf x = false → c ∈ s.childrenOf x →
      ReachU s p c

/-- Well-formedness of the subscriptions: each belongs to an existing handle
and is woken only if that handle has shut. -/
def SubInv (s : St) : Prop :=
  ∀ w ∈ s.subs, w.handle < s.numHandles ∧ (w.resolved = true → s.statusOf w.handle = true)

instance (s : St) : Decidable (SubInv s) :=
  inferInstanceAs (Decidable (∀ w ∈ s.subs, _ ∧ _))

theorem subInv_step {s : St} {op : Op} {s' : St} {tr : List Ev} (hI : SubInv s)
    (hex : exec s op = .ok (s', tr)) : SubInv s' := by
  obtain ⟨hnum, _, _, hmono, _, _, hsubs⟩ := exec_step hex
  intro w hw
  rcases hsubs w hw with ⟨_, hres, hhandle⟩ | ⟨w0, hw0, _, hhd, hres⟩
  · refine ⟨Nat.lt_of_lt_of_le hhandle hnum, ?_⟩
    intro ht
    rw [hres] at ht
    cases ht
  · obtain ⟨hv0, hr0⟩ := hI w0 hw0
    refine ⟨hhd ▸ Nat.lt_of_lt_of_le hv0 hnum, ?_⟩
    intro ht
    rcases hres with he | ⟨_, _, _, hst'⟩
    · have h0 : w0.resolved = true := by
        rw [← he]
        exact ht
      rw [← hhd]
      exact hmono w0.handle hv0 (hr0 h0)
    · rw [← hhd]
      exact hst'

theorem subInv_run {s : St} {p : List Op} {s' : St} {tr : List Ev} (hI : SubInv s)
    (hr : run s p = .ok (s', tr)) : SubInv s' :=
  run_preserve (fun _ _ _ _ hi hex => subInv_step hi hex) hI hr

/-- The situation of a `wait()` subscription (id `k`) created on a handle `H`
that had already shut when the subscription was made: the broadcast send
happened before `subscribe()`, so nothing will ever wake it. -/
def LateSub (H k : Nat) (t : St) : Prop :=
  t.statusOf H = true ∧ H < t.numHandles ∧ k < t.nextSub ∧
  ∀ w ∈ t.subs, w.id = k → (w.handle = H ∧ w.resolved = false)

theorem lateSub_step {H k : Nat} {s : St} {op : Op} {s' : St} {tr : List Ev}
    (hI : LateSub H k s) (hex : exec s op = .ok (s', tr)) : LateSub H k s' := by
  obtain ⟨hst, hn, hks, hsub⟩ := hI
  obtain ⟨hnum, hnsub, _, hmono, _, _, hsubs⟩ := exec_step hex
  refine ⟨hmono H hn hst, Nat.lt_of_lt_of_le hn hnum, Nat.lt_of_lt_of_le hks hnsub, ?_⟩
  intro w hw hid
  rcases hsubs w hw with ⟨hle, _, _⟩ | ⟨w0, hw0, hid0, hhd, hres⟩
  · rw [hid] at hle
    omega
  · have hk0 : w0.id = k := by rw [hid0, hid]
    obtain ⟨hhd0, hres0⟩ := hsub w0 hw0 hk0
    refine ⟨by rw [← hhd, hhd0], ?_⟩
    rcases hres with he | ⟨_, _, hflip, _⟩
    · rw [he, hres0]
    · rw [hhd0] at hflip
      rw [hst] at hflip
      cases hflip

theorem lateSub_run {H k : Nat} {s : St} {p : List Op} {s' : St} {tr : List Ev}
    (hI : LateSub H k s) (hr : run s p = .ok (s', tr)) : LateSub H k s' :=
  run_preserve (fun _ _ _ _ hi hex => lateSub_step hi hex) hI hr

/-- A hook id `k`, stored only on the already-shut handle `H`: nothing can
ever run it, because hooks only run when their handle flips and `H` can
never flip again. -/
def FrozenHook (H k : Nat) (t : St) : Prop :=
  t.statusOf H = true ∧ H < t.numHandles ∧ k < t.nextHook ∧
  ∀ x, x ≠ H → k ∉ (t.hooksOf x).map Prod.fst

theorem frozenHook_step {H k : Nat} {s : St} {op : Op} {s' : St} {tr : List Ev}
    (hI : FrozenHook H k s) (hex : exec s op = .ok (s', tr)) :
    FrozenHook H k s' ∧ ∀ x, k ∉ hookIdsOf x tr := by
  obtain ⟨hst, hn, hkk, hhk⟩ := hI
  obtain ⟨hnum, _, hnhk, hmono, hkSub, hev, _⟩ := exec_step hex
  constructor
  · refine ⟨hmono H hn hst, Nat.lt_of_lt_of_le hn hnum,
      Nat.lt_of_lt_of_le hkk hnhk, ?_⟩
    intro x hne hmem
    rcases hkSub x k hmem with hold | hge
    · exact hhk x hne hold
    · omega
  · intro x hmem
    obtain ⟨hreg, hflip, _⟩ := hev x k hmem
    by_cases hxh : x = H
    · subst hxh
      rw [hst] at hflip
      cases hflip
    · exact hhk x hxh hreg

theorem frozenHook_run {H k : Nat} {s : St} {p : List Op} {s' : St} {tr : List Ev}
    (hI : FrozenHook H k s) (hr : run s p = .ok (s', tr)) :
    FrozenHook H k s' ∧ ∀ x held, Ev.hookRun x k held ∉ tr := by
  have hmain := @run_preserve_ev (FrozenHook H k)
    (fun e => ∃ x held, e = Ev.hookRun x k held)
    (fun s0 op s2 tr2 hi hex =>
      ⟨(frozenHook_step hi hex).1, fun e he hbad => by
        obtain ⟨x, held, rfl⟩ := hbad
        exact (frozenHook_step hi hex).2 x (mem_hookIdsOf he)⟩)
    s p s' tr hI hr
  exact ⟨hmain.1, fun x held hmem => hmain.2 _ hmem ⟨x, held, rfl⟩⟩

/-! ### The claims -/

/-- C1: the claim says a `wait()` started after `shut()` completed resolves
immediately via the status flag.  The code has no such check: `wait()` only
subscribes to the broadcast channel, and a receiver subscribed after the
single `send(())` is never woken.  At the failing input (a handle that is
shut and then waited on), the subscription is created unresolved and no
continuation of the program can ever resolve it: the wait hangs forever. -/
theorem c1_late_wait_never_resolves :
    run0 [.root, .shut 0, .wait 0] =
      .ok (⟨[true], [[]], [[]], [true], [⟨0, 0, false⟩], 0, 1⟩, [Ev.fire 0]) ∧
    ∀ p s2 tr,
      run ⟨[true], [[]], [[]], [true], [⟨0, 0, false⟩], 0, 1⟩ p = .ok (s2, tr) →
      ∀ w ∈ s2.subs, w.id = 0 → w.resolved = false := by
  constructor
  · decide
  · intro p s2 tr hr w hw hid
    have hI : LateSub 0 0 ⟨[true], [[]], [[]], [true], [⟨0, 0, false⟩], 0, 1⟩ := by
      refine ⟨rfl, by decide, by decide, ?_⟩
      decide
    exact ((lateSub_run hI hr).2.2.2 w hw hid).2

theorem c1_witness :
    ∀ w ∈ (⟨[true], [[]], [[]], [true], [⟨0, 0, false⟩], 0, 1⟩ : St).subs,
      w.id = 0 → w.resolved = false :=
  c1_late_wait_never_resolves.2 [Op.shut 0]
    ⟨[true], [[]], [[]], [true], [⟨0, 0, false⟩], 0, 1⟩ [] (by decide)

/-- C2 counterexample: the claim states that `shut()` operates on the drained
hooks outside the lock.  In the source the `MutexGuard` produced in the head
of `for i in self.0.hooks.lock().unwrap().drain(..)` lives for the whole
loop, so hooks run with the hooks mutex held: on a handle with one inert
hook, the hook-run event records the hooks lock of handle 0 as held. -/
theorem c2_counterexample :
    run0 [.root, .registerHook 0 none, .shut 0] =
      .ok (⟨[true], [[]], [[]], [true], [], 1, 0⟩,
        [Ev.fire 0, Ev.hookRun 0 0 [Lk.hk 0]]) ∧
    ¬ HooksLockFree [Ev.fire 0, Ev.hookRun 0 0 [Lk.hk 0]] := by
  constructor
  · decide
  · intro hfree
    have := hfree (Ev.hookRun 0 0 [Lk.hk 0]) (by decide)
    cases this

/-- C2 amended: `shut()` iterates the drained children and hooks while still
holding the corresponding mutex guard; nevertheless no API call (in
particular no hook that reenters `shut`, on its own handle or any other)
can deadlock, because `shut` checks the status flag before taking any lock
and the flag of every lock-holding handle is already set; and the hooks of a
handle `A` whose shutdown runs them run exactly once each, in registration
order, even when one of them calls `A.shut()` itself. -/
theorem c2_shut_reentrancy_safe :
    (∀ s p, run s p ≠ .error .deadlock) ∧
    (∀ s A s' tr, (hookBag s).Nodup → s.statusOf A = false →
      exec s (.shut A) = .ok (s', tr) →
      hookIdsOf A tr = (s.hooksOf A).map Prod.fst ∧ (hookIdsOf A tr).Nodup) := by
  constructor
  · exact fun s p => run_no_deadlock s p
  · intro s A s' tr hnd hstf hex
    obtain ⟨p0, hi, hst⟩ := post_of_exec_shut hex
    constructor
    · rw [hi A, if_pos ⟨hstf, hst⟩]
    · rw [hi A, if_pos ⟨hstf, hst⟩]
      exact nodup_hooksOf_of_bag hnd A

theorem c2_witness :
    hookIdsOf 0 [Ev.fire 0, Ev.hookRun 0 0 [Lk.hk 0]] =
      ((⟨[false], [[]], [[(0, some 0)]], [false], [], 1, 0⟩ : St).hooksOf 0).map
        Prod.fst ∧
    (hookIdsOf 0 [Ev.fire 0, Ev.hookRun 0 0 [Lk.hk 0]]).Nodup :=
  c2_shut_reentrancy_safe.2 ⟨[false], [[]], [[(0, some 0)]], [false], [], 1, 0⟩ 0
    ⟨[true], [[]], [[]], [true], [], 1, 0⟩ [Ev.fire 0, Ev.hookRun 0 0 [Lk.hk 0]]
    (by decide) (by decide) (by decide)

/-- C3: a `shut()` on a handle whose status flag is already `true` is an
exact no-op — same state, no signal fired, no child touched, no hook run —
and therefore, after a completed first `shut()`, a second call returns
immediately and the registered hooks have run exactly once in total. -/
theorem c3_second_shut_noop :
    (∀ f held s H, s.statusOf H = true → shutF (f + 1) held s H = .ok (s, [])) ∧
    (∀ s H s1 tr1, (hookBag s).Nodup → s.statusOf H = false →
      exec s (.shut H) = .ok (s1, tr1) →
      exec s1 (.shut H) = .ok (s1, []) ∧
      hookIdsOf H tr1 = (s.hooksOf H).map Prod.fst ∧ (hookIdsOf H tr1).Nodup) := by
  constructor
  · intro f held s H hst
    exact shutF_done hst
  · intro s H s1 tr1 hnd hstf hex
    obtain ⟨p0, hi, hst1⟩ := post_of_exec_shut hex
    have hv := valid_of_exec_shut hex
    have hv1 : H < s1.numHandles := by
      show H < s1.status.length
      rw [p0.lenStatus]
      exact hv
    refine ⟨?_, ?_, ?_⟩
    · rw [exec_shut_eq hv1]
      exact shutF_done hst1
    · rw [hi H, if_pos ⟨hstf, hst1⟩]
    · rw [hi H, if_pos ⟨hstf, hst1⟩]
      exact nodup_hooksOf_of_bag hnd H

theorem c3_witness :
    exec (⟨[true], [[]], [[]], [true], [], 1, 0⟩ : St) (.shut 0) =
      .ok (⟨[true], [[]], [[]], [true], [], 1, 0⟩, []) ∧
    hookIdsOf 0 [Ev.fire 0, Ev.hookRun 0 0 [Lk.hk 0]] =
      ((⟨[false], [[]], [[(0, none)]], [false], [], 1, 0⟩ : St).hooksOf 0).map
        Prod.fst ∧
    (hookIdsOf 0 [Ev.fire 0, Ev.hookRun 0 0 [Lk.hk 0]]).Nodup :=
  c3_second_shut_noop.2 ⟨[false], [[]], [[(0, none)]], [false], [], 1, 0⟩ 0
    ⟨[true], [[]], [[]], [true], [], 1, 0⟩ [Ev.fire 0, Ev.hookRun 0 0 [Lk.hk 0]]
    (by decide) (by decide) (by decide)

/-- C4: shutting a handle `P` recursively shuts every handle reachable from
`P` through the children lists (at arbitrary depth, whether registered via
`child()` or `adopt()`), and empties the children list of every handle it
shuts along the way. -/
theorem c4_shut_propagates_to_descendants :
    ∀ s P s' tr, s.statusOf P = false → exec s (.shut P) = .ok (s', tr) →
      (∀ C, ReachU s P C → s'.statusOf C = true) ∧
      (∀ x, Flip s s' x → s'.childrenOf x = []) := by
  intro s P s' tr hstf hex
  obtain ⟨p0, _, hstP⟩ := post_of_exec_shut hex
  constructor
  · intro C hreach
    induction hreach with
    | refl => exact hstP
    | step hr hx hc ih => exact p0.propag _ _ ⟨hx, ih⟩ hc
  · intro x hfl
    exact (p0.drainC x).1 hfl

theorem c4_witness :
    (⟨[true, true, true], [[], [], []], [[], [], []], [true, true, true], [], 0, 0⟩
      : St).statusOf 2 = true ∧
    (⟨[true, true, true], [[], [], []], [[], [], []], [true, true, true], [], 0, 0⟩
      : St).childrenOf 0 = [] := by
  have hc4 := c4_shut_propagates_to_descendants
    ⟨[false, false, false], [[1], [2], []], [[], [], []], [false, false, false], [], 0, 0⟩
    0
    ⟨[true, true, true], [[], [], []], [[], [], []], [true, true, true], [], 0, 0⟩
    [Ev.fire 0, Ev.fire 1, Ev.fire 2] (by decide) (by decide)
  have h1 : ReachU
      ⟨[false, false, false], [[1], [2], []], [[], [], []], [false, false, false], [], 0, 0⟩
      0 1 :=
    ReachU.step ReachU.refl (by decide) (by decide)
  have h2 : ReachU
      ⟨[false, false, false], [[1], [2], []], [[], [], []], [false, false, false], [], 0, 0⟩
      0 2 :=
    ReachU.step h1 (by decide) (by decide)
  exact ⟨hc4.1 2 h2, hc4.2 0 (by decide)⟩

/-- C5: a `wait()` call appends an unresolved subscription; as long as the
handle has not shut, no subscription on it is resolved (no early wakeup,
along any run); and the `shut()` call resolves every subscription on the
handle that exists when it fires (no missed wakeup). -/
theorem c5_waiters_resolve_exactly_on_shut :
    ∀ s H, SubInv s →
      (∀ s1 tr, exec s (.wait H) = .ok (s1, tr) →
        s1.subs = s.subs ++ [⟨H, s.nextSub, false⟩] ∧ SubInv s1) ∧
      (∀ p s2 tr, run s p = .ok (s2, tr) → s2.statusOf H = false →
        ∀ w ∈ s2.subs, w.handle = H → w.resolved = false) ∧
      (s.statusOf H = false →
        ∀ s3 tr, exec s (.shut H) = .ok (s3, tr) →
          ∀ w ∈ s3.subs, w.handle = H → w.resolved = true) := by
  intro s H hI
  refine ⟨?_, ?_, ?_⟩
  · intro s1 tr hex
    have hv : H < s.numHandles := by
      by_contra hv
      rw [exec_wait_err hv] at hex
      cases hex
    have hI1 := subInv_step hI hex
    rw [exec_wait hv] at hex
    injection hex with hh
    injection hh with h1 h2
    subst h1
    exact ⟨rfl, hI1⟩
  · intro p s2 tr hr hst2 w hw hhd
    have hI2 := subInv_run hI hr
    cases hres : w.resolved
    · rfl
    · have := (hI2 w hw).2 hres
      rw [hhd] at this
      rw [this] at hst2
      cases hst2
  · intro hstf s3 tr hex w hw hhd
    obtain ⟨p0, _, hst3⟩ := post_of_exec_shut hex
    rw [p0.subsEq] at hw
    rcases List.mem_map.mp hw with ⟨w0, hw0, hgw⟩
    by_cases hf : Flip s s3 w0.handle
    · rw [if_pos hf] at hgw
      rw [← hgw]
    · rw [if_neg hf] at hgw
      subst hgw
      rw [hhd] at hf
      exact absurd ⟨hstf, hst3⟩ hf

theorem c5_witness :
    ((⟨[false], [[]], [[]], [false], [⟨0, 0, false⟩], 0, 1⟩ : St).subs =
      (⟨[false], [[]], [[]], [false], [], 0, 0⟩ : St).subs ++ [⟨0, 0, false⟩]
      ∧ SubInv ⟨[false], [[]], [[]], [false], [⟨0, 0, false⟩], 0, 1⟩) ∧
    (∀ w ∈ (⟨[true], [[]], [[]], [true], [⟨0, 0, true⟩], 0, 1⟩ : St).subs,
      w.handle = 0 → w.resolved = true) :=
  ⟨(c5_waiters_resolve_exactly_on_shut
      ⟨[false], [[]], [[]], [false], [], 0, 0⟩ 0 (by decide)).1
      ⟨[false], [[]], [[]], [false], [⟨0, 0, false⟩], 0, 1⟩ [] (by decide),
    (c5_waiters_resolve_exactly_on_shut
      ⟨[false], [[]], [[]], [false], [⟨0, 0, false⟩], 0, 1⟩ 0 (by decide)).2.2
      (by decide) ⟨[true], [[]], [[]], [true], [⟨0, 0, true⟩], 0, 1⟩ [Ev.fire 0]
      (by decide)⟩

/-- C6: in the trace of a `shut()` call, the hooks that run for a handle `x`
are exactly the hooks registered on `x` if `x` itself transitions to shut
during the call (in registration order) and none otherwise — so shutting an
unrelated handle, or a child of `x`, never runs the hooks of `x`; each hook
runs at most once; and the target's hooks all run after its children were
shut (every child fires in the children segment of the trace, before any
hook of the target runs). -/
theorem c6_hooks_iff_own_shut :
    ∀ s P s' tr, (hookBag s).Nodup → exec s (.shut P) = .ok (s', tr) →
      (∀ x, hookIdsOf x tr =
        if Flip s s' x then (s.hooksOf x).map Prod.fst else []) ∧
      (∀ x, (hookIdsOf x tr).Nodup) ∧
      (s.statusOf P = false → ∃ trC trH, tr = Ev.fire P :: (trC ++ trH) ∧
        hookIdsOf P trC = [] ∧ hookIdsOf P trH = (s.hooksOf P).map Prod.fst ∧
        ∀ C ∈ s.childrenOf P, C = P ∨ s.statusOf C = true ∨ Ev.fire C ∈ trC) := by
  intro s P s' tr hnd hex
  obtain ⟨p0, hi, hstP⟩ := post_of_exec_shut hex
  refine ⟨hi, ?_, ?_⟩
  · intro x
    rw [hi x]
    by_cases hf : Flip s s' x
    · rw [if_pos hf]
      exact nodup_hooksOf_of_bag hnd x
    · rw [if_neg hf]
      exact List.nodup_nil
  · intro hstf
    have hv := valid_of_exec_shut hex
    rw [exec_shut_eq hv] at hex
    rw [shutF_succ_body hstf (List.not_mem_nil _)] at hex
    split at hex
    · cases hex
    · rename_i s4 t1 hit1
      rw [if_neg (List.not_mem_nil _)] at hex
      split at hex
      · cases hex
      · rename_i s6 t2 hit2
        injection hex with hh
        injection hh with h1 h2
        subst h1
        subst h2
        have hlt : P < s.status.length := statusOf_false_lt hstf
        obtain ⟨p1, h1s, hT1⟩ := PL_all s.numHandles [Lk.ch P] (preS s P)
          (s.childrenOf P) s4 t1 hit1
        have hpreh : (preS s P).statusOf P = true := by
          rw [statusOf_preS hlt, if_pos rfl]
        have hs5h : (drainHooks s4 P).statusOf P = true := p1.mono P hpreh
        obtain ⟨p2, hX2, hI2⟩ := PH_all s.numHandles [Lk.hk P] P (drainHooks s4 P)
          (s4.hooksOf P) s6 t2 hs5h hit2
        have hkh4 : s4.hooksOf P = s.hooksOf P :=
          ((p1.drainH P).2 (flip_not_of_true hpreh)).trans (hooksOf_preS s P P)
        refine ⟨t1, t2, rfl, ?_, ?_, ?_⟩
        · rw [h1s P, if_neg (flip_not_of_true hpreh)]
        · rw [hI2, hkh4]
        · intro C hC
          by_cases hCP : C = P
          · exact Or.inl hCP
          · by_cases hCst : s.statusOf C = true
            · exact Or.inr (Or.inl hCst)
            · have hCf : s.statusOf C = false := by
                cases hv2 : s.statusOf C
                · rfl
                · exact absurd hv2 hCst
              have hpreC : (preS s P).statusOf C = false := by
                rw [statusOf_preS hlt, if_neg hCP]
                exact hCf
              have hcount := p1.fireC C
              have hflip : Flip (preS s P) s4 C := ⟨hpreC, hT1 C hC⟩
              rw [if_pos hflip] at hcount
              exact Or.inr (Or.inr (fire_mem_of_fireCount (by rw [hcount]; omega)))

theorem c6_witness :
    ∃ trC trH,
      [Ev.fire 0, Ev.fire 1, Ev.hookRun 1 1 [Lk.hk 1, Lk.ch 0],
        Ev.hookRun 0 0 [Lk.hk 0]] = Ev.fire 0 :: (trC ++ trH) ∧
      hookIdsOf 0 trC = [] ∧
      hookIdsOf 0 trH =
        ((⟨[false, false], [[1], []], [[(0, none)], [(1, none)]], [false, false],
          [], 2, 0⟩ : St).hooksOf 0).map Prod.fst ∧
      ∀ C ∈ (⟨[false, false], [[1], []], [[(0, none)], [(1, none)]], [false, false],
          [], 2, 0⟩ : St).childrenOf 0,
        C = 0 ∨ (⟨[false, false], [[1], []], [[(0, none)], [(1, none)]],
          [false, false], [], 2, 0⟩ : St).statusOf C = true ∨ Ev.fire C ∈ trC :=
  (c6_hooks_iff_own_shut
    ⟨[false, false], [[1], []], [[(0, none)], [(1, none)]], [false, false], [], 2, 0⟩
    0 ⟨[true, true], [[], []], [[], []], [true, true], [], 2, 0⟩
    [Ev.fire 0, Ev.fire 1, Ev.hookRun 1 1 [Lk.hk 1, Lk.ch 0],
      Ev.hookRun 0 0 [Lk.hk 0]]
    (by decide) (by decide)).2.2 (by decide)

/-- C7: a handle created by `root()` or `child()` reads `off() = false`;
after `shut()` returns it reads `off() = true`; and the status flag of an
existing handle is never un-set by any later call or run — it moves
monotonically from `false` to `true` at most once. -/
theorem c7_status_lifecycle :
    (∀ s s1 tr, exec s .root = .ok (s1, tr) → s1.statusOf s.numHandles = false) ∧
    (∀ s P s1 tr, exec s (.child P) = .ok (s1, tr) →
      s1.statusOf s.numHandles = false) ∧
    (∀ s H s1 tr, exec s (.shut H) = .ok (s1, tr) → s1.statusOf H = true) ∧
    (∀ s op s1 tr x, x < s.numHandles → exec s op = .ok (s1, tr) →
      s.statusOf x = true → s1.statusOf x = true) ∧
    (∀ s p s1 tr x, x < s.numHandles → run s p = .ok (s1, tr) →
      s.statusOf x = true → s1.statusOf x = true) := by
  refine ⟨?_, ?_, ?_, ?_, ?_⟩
  · intro s s1 tr hex
    rw [exec_root] at hex
    injection hex with hh
    injection hh with h1 h2
    subst h1
    exact statusOf_newHandle_new s
  · intro s P s1 tr hex
    have hv : P < s.numHandles := by
      by_contra hv
      rw [exec_child_err hv] at hex
      cases hex
    rw [exec_child hv] at hex
    injection hex with hh
    injection hh with h1 h2
    subst h1
    rw [statusOf_pushChild]
    exact statusOf_newHandle_new s
  · intro s H s1 tr hex
    exact (post_of_exec_shut hex).2.2
  · intro s op s1 tr x hx hex hst
    exact (exec_step hex).2.2.2.1 x hx hst
  · intro s p s1 tr x hx hr hst
    have hstep : ∀ t op t2 tr2, (x < t.numHandles ∧ t.statusOf x = true) →
        exec t op = .ok (t2, tr2) → (x < t2.numHandles ∧ t2.statusOf x = true) := by
      intro t op t2 tr2 hi hex
      obtain ⟨hnum, _, _, hmono, _, _, _⟩ := exec_step hex
      exact ⟨Nat.lt_of_lt_of_le hi.1 hnum, hmono x hi.1 hi.2⟩
    exact (run_preserve hstep ⟨hx, hst⟩ hr).2

theorem c7_witness :
    (⟨[false], [[]], [[]], [false], [], 0, 0⟩ : St).statusOf 0 = false ∧
    (⟨[true], [[]], [[]], [true], [], 0, 0⟩ : St).statusOf 0 = true ∧
    (⟨[true, false], [[], []], [[], []], [true, false], [], 0, 0⟩ : St).statusOf 0
      = true :=
  ⟨c7_status_lifecycle.1 St.empty ⟨[false], [[]], [[]], [false], [], 0, 0⟩ []
      (by decide),
    c7_status_lifecycle.2.2.1 ⟨[false], [[]], [[]], [false], [], 0, 0⟩ 0
      ⟨[true], [[]], [[]], [true], [], 0, 0⟩ [Ev.fire 0] (by decide),
    c7_status_lifecycle.2.2.2.2 ⟨[true], [[]], [[]], [true], [], 0, 0⟩ [Op.root]
      ⟨[true, false], [[], []], [[], []], [true, false], [], 0, 0⟩ [] 0 (by decide)
      (by decide) (by decide)⟩

/-- C8: adoption is not exclusive.  If `X` is registered as a child of both
`P` and `Q`, shutting either parent shuts `X`; here, after `P.shut()`, the
handle `X` is off, its signal fired exactly once and its hooks ran exactly
once each in order, and the later `Q.shut()` neither fires `X`'s signal nor
runs any hook of `X` again. -/
theorem c8_multi_parent_adoption :
    ∀ s P Q X s1 tr1 s2 tr2, (hookBag s).Nodup →
      X ∈ s.childrenOf P → X ∈ s.childrenOf Q →
      s.statusOf P = false → s.statusOf X = false →
      exec s (.shut P) = .ok (s1, tr1) → exec s1 (.shut Q) = .ok (s2, tr2) →
      s1.statusOf X = true ∧ s2.statusOf X = true ∧
      fireCount X tr1 = 1 ∧ fireCount X tr2 = 0 ∧
      hookIdsOf X tr1 = (s.hooksOf X).map Prod.fst ∧
      (hookIdsOf X tr1).Nodup ∧ hookIdsOf X tr2 = [] := by
  intro s P Q X s1 tr1 s2 tr2 hnd hmP _hmQ hstP hstX hex1 hex2
  obtain ⟨p1, hi1, hsP1⟩ := post_of_exec_shut hex1
  obtain ⟨p2, hi2, _⟩ := post_of_exec_shut hex2
  have hfl1 : Flip s s1 P := ⟨hstP, hsP1⟩
  have hX1 : s1.statusOf X = true := p1.propag P X hfl1 hmP
  have hflX : Flip s s1 X := ⟨hstX, hX1⟩
  have hnfl2 : ¬ Flip s1 s2 X := flip_not_of_true hX1
  refine ⟨hX1, p2.mono X hX1, ?_, ?_, ?_, ?_, ?_⟩
  · rw [p1.fireC X, if_pos hflX]
  · rw [p2.fireC X, if_neg hnfl2]
  · rw [hi1 X, if_pos hflX]
  · rw [hi1 X, if_pos hflX]
    exact nodup_hooksOf_of_bag hnd X
  · rw [hi2 X, if_neg hnfl2]

theorem c8_witness :
    (⟨[true, false, true], [[], [2], []], [[], [], []], [true, false, true], [], 1, 0⟩
      : St).statusOf 2 = true ∧
    (⟨[true, true, true], [[], [], []], [[], [], []], [true, true, true], [], 1, 0⟩
      : St).statusOf 2 = true ∧
    fireCount 2 [Ev.fire 0, Ev.fire 2, Ev.hookRun 2 0 [Lk.hk 2, Lk.ch 0]] = 1 ∧
    fireCount 2 [Ev.fire 1] = 0 ∧
    hookIdsOf 2 [Ev.fire 0, Ev.fire 2, Ev.hookRun 2 0 [Lk.hk 2, Lk.ch 0]] =
      ((⟨[false, false, false], [[2], [2], []], [[], [], [(0, none)]],
        [false, false, false], [], 1, 0⟩ : St).hooksOf 2).map Prod.fst ∧
    (hookIdsOf 2 [Ev.fire 0, Ev.fire 2, Ev.hookRun 2 0 [Lk.hk 2, Lk.ch 0]]).Nodup ∧
    hookIdsOf 2 [Ev.fire 1] = [] :=
  c8_multi_parent_adoption
    ⟨[false, false, false], [[2], [2], []], [[], [], [(0, none)]],
      [false, false, false], [], 1, 0⟩ 0 1 2
    ⟨[true, false, true], [[], [2], []], [[], [], []], [true, false, true], [], 1, 0⟩
    [Ev.fire 0, Ev.fire 2, Ev.hookRun 2 0 [Lk.hk 2, Lk.ch 0]]
    ⟨[true, true, true], [[], [], []], [[], [], []], [true, true, true], [], 1, 0⟩
    [Ev.fire 1]
    (by decide) (by decide) (by decide) (by decide) (by decide) (by decide) (by decide)

/-- C9: `shut` terminates on every finite collection of handles, for an
arbitrary children relation including cyclic ones introduced by `adopt`:
with any fuel above the number of not-yet-shut handles the computation
returns, and giving it more fuel does not change the result, because the
status flag is set before recursing so each handle's shutdown body runs at
most once. -/
theorem c9_shut_terminates (s : St) (h f : Nat) (hf : unshutCount s < f) :
    (∃ s' tr, shutF f [] s h = .ok (s', tr)) ∧
    shutF (f + 1) [] s h = shutF f [] s h :=
  QF_all f [] s h (heldShut_nil s) hf

theorem c9_witness :
    (∃ s' tr, shutF 2 [] ⟨[false], [[0]], [[]], [false], [], 0, 0⟩ 0 = .ok (s', tr)) ∧
    shutF 3 [] ⟨[false], [[0]], [[]], [false], [], 0, 0⟩ 0 =
      shutF 2 [] ⟨[false], [[0]], [[]], [false], [], 0, 0⟩ 0 :=
  c9_shut_terminates ⟨[false], [[0]], [[]], [false], [], 0, 0⟩ 0 2 (by decide)

/-- C10: registering a hook on a handle that has already shut appends the
hook to the hooks list, but nothing ever executes it: later `shut()` calls
on this handle return at the status check without draining hooks, and no
other handle stores this hook id, so no run of any operations produces a run
event for it — the hook is silently dropped unexecuted, not run immediately. -/
theorem c10_hook_after_shut_never_runs :
    ∀ s H b s1 tr0, s.statusOf H = true → s.hooks.length = s.status.length →
      (∀ k ∈ hookBag s, k < s.nextHook) →
      exec s (.registerHook H b) = .ok (s1, tr0) →
      tr0 = [] ∧ s1.hooksOf H = s.hooksOf H ++ [(s.nextHook, b)] ∧
      ∀ p s2 tr, run s1 p = .ok (s2, tr) →
        ∀ x held, Ev.hookRun x s.nextHook held ∉ tr := by
  intro s H b s1 tr0 hst hlen hbag hex
  have hv : H < s.numHandles ∧ bodyOK b s.numHandles := by
    by_contra hv
    rw [exec_registerHook_err hv] at hex
    cases hex
  rw [exec_registerHook hv] at hex
  injection hex with hh
  injection hh with h1 h2
  subst h1
  subst h2
  refine ⟨rfl, ?_, ?_⟩
  · show (s.hooks.set H (s.hooksOf H ++ [(s.nextHook, b)])).getD H [] = _
    exact getD_set_self _ _ _ _ (by rw [hlen]; exact hv.1)
  · intro p s2 tr hr x held
    have hI : FrozenHook H s.nextHook
        { s with hooks := s.hooks.set H (s.hooksOf H ++ [(s.nextHook, b)]), nextHook := s.nextHook + 1 } := by
      refine ⟨hst, hv.1, Nat.lt_succ_self _, ?_⟩
      intro y hne hmem
      have hmem2 : s.nextHook ∈ ((s.hooks.set H (s.hooksOf H ++ [(s.nextHook, b)])).getD y
          []).map Prod.fst := hmem
      rw [getD_set_ne _ _ _ (fun e => hne e.symm)] at hmem2
      have := hbag _ (mem_hookBag hmem2)
      omega
    exact (frozenHook_run hI hr).2 x held

theorem c10_witness :
    (⟨[true], [[]], [[(0, none)]], [true], [], 1, 0⟩ : St).hooksOf 0 =
      (⟨[true], [[]], [[]], [true], [], 0, 0⟩ : St).hooksOf 0 ++ [(0, none)] ∧
    Ev.hookRun 0 0 [] ∉ ([] : List Ev) := by
  have h10 := c10_hook_after_shut_never_runs ⟨[true], [[]], [[]], [true], [], 0, 0⟩
    0 none ⟨[true], [[]], [[(0, none)]], [true], [], 1, 0⟩ [] (by decide) (by decide)
    (by decide) (by decide)
  exact ⟨h10.2.1, h10.2.2 [Op.shut 0] ⟨[true], [[]], [[(0, none)]], [true], [], 1, 0⟩
    [] (by decide) 0 []⟩
